import Mathlib

/-!
# Verification development for `lox`

Two translation units are embedded:

* `src/intro/d_list.c` — a doubly linked list of C strings (`insert`, `find`,
  `delete`, `print`), modelled over an explicit heap of `Node` cells;
* `src/clox/object.h` — the object header of the bytecode VM (`isObjType`,
  `IS_STRING`, `AS_STRING`, `AS_CSTRING`). The header only declares `takeString`
  and `copyString`; string construction, hashing and interning are modelled from
  the specification and marked as such.

Functions that dereference pointers return an `Option`: `none` stands for a
dereference of `NULL` or of a dead cell, where the C program has no defined result.
-/

namespace DList

/-! ## Data model of `d_list.c` -/

/-- Source: `#define CAPACITY 100`. -/
def CAPACITY : Int := 100

/-- Source: `struct Node`. A pointer is `Option Nat`: `none` is `NULL`, `some a` is the
address `a`. The `char *value` buffer is modelled by its content (the bytes up
to the terminator), which is what `strcpy`, `strcmp` and `printf("%s")` see. -/
structure Node where
  value : String
  prev : Option Nat
  next : Option Nat
deriving DecidableEq

/-- Source: `struct List` (named `LinkedList` here, `List` being Lean's list type). -/
structure LinkedList where
  head : Option Nat
  tail : Option Nat
  size : Int
deriving DecidableEq

/-- The heap of `Node` cells: `h a = none` when no live node is at address `a`. -/
abbrev Heap := Nat → Option Node

/-- A program state: the node heap and the `List` record the functions work on. -/
structure State where
  heap : Heap
  list : LinkedList

/-- Writing a whole node cell. -/
def store (h : Heap) (a : Nat) (nd : Node) : Heap :=
  fun b => if b = a then some nd else h b

/-- The call `free(a)`: the cell is no longer live. -/
def free (h : Heap) (a : Nat) : Heap :=
  fun b => if b = a then none else h b

/-- The assignment `a->prev = p`; `none` when `a` is not a live node. -/
def setPrev (h : Heap) (a : Nat) (p : Option Nat) : Option Heap :=
  match h a with
  | none => none
  | some nd => some (store h a { nd with prev := p })

/-- The assignment `a->next = p`; `none` when `a` is not a live node. -/
def setNext (h : Heap) (a : Nat) (p : Option Nat) : Option Heap :=
  match h a with
  | none => none
  | some nd => some (store h a { nd with next := p })

/-- Reading the node a pointer refers to; `none` for `NULL` or a dead cell. -/
def deref (h : Heap) : Option Nat → Option Node
  | none => none
  | some a => h a

/-! ## `insert` -/

/-- The loop of `insert`, `for (i = 0; i < index; i++) { prev = curr; curr = curr->next; }`,
run for `k` iterations from `(prev, curr)`. `none` when it dereferences `NULL`. -/
def seek (h : Heap) : Nat → Option Nat → Option Nat → Option (Option Nat × Option Nat)
  | 0, prev, curr => some (prev, curr)
  | k + 1, _, curr =>
    match deref h curr with
    | none => none
    | some nd => seek h k curr nd.next

/-- The statement `if (prev) { temp->prev = prev; prev->next = temp; }`. -/
def linkPrev (h : Heap) (temp : Nat) : Option Nat → Option Heap
  | none => some h
  | some p => (setPrev h temp (some p)).bind fun h1 => setNext h1 p (some temp)

/-- The statement `if (curr) { temp->next = curr; curr->prev = temp; }`. -/
def linkNext (h : Heap) (temp : Nat) : Option Nat → Option Heap
  | none => some h
  | some c => (setNext h temp (some c)).bind fun h1 => setPrev h1 c (some temp)

/-- Source: `bool insert(List* list, char* value, int index)`.

`temp` is the address returned by `malloc(sizeof(Node))`; the allocator is
assumed not to fail. The result is `none` when the C code dereferences a
pointer that is `NULL` or not live. -/
def insert (s : State) (temp : Nat) (value : String) (index : Int) : Option (State × Bool) :=
  if index > s.list.size ∨ s.list.size = CAPACITY then some (s, false)
  else
    match seek s.heap index.toNat none s.list.head with
    | none => none
    | some (prev, curr) =>
      let h0 := store s.heap temp ⟨value, none, none⟩
      match linkPrev h0 temp prev with
      | none => none
      | some h1 =>
        match linkNext h1 temp curr with
        | none => none
        | some h2 =>
          let head1 := if index = 0 then some temp else s.list.head
          let tail1 := if index = s.list.size then some temp else s.list.tail
          some (⟨h2, ⟨head1, tail1, s.list.size + 1⟩⟩, true)

/-! ## `find` -/

/-- The loop of `find`, with `k` iterations left, at index `i` and node `curr`. -/
def findLoop (h : Heap) (value : String) : Nat → Int → Option Nat → Option Int
  | 0, _, _ => some (-1)
  | k + 1, i, curr =>
    match deref h curr with
    | none => none
    | some nd => if nd.value = value then some i else findLoop h value k (i + 1) nd.next

/-- Source: `int find(List* list, char* value)`; `strcmp(...) == 0` is equality of content.
Like `insert` and `delete` it returns the state after the call with its result;
the body contains no store, so that state is the one it was given. -/
def find (s : State) (value : String) : Option (State × Int) :=
  (findLoop s.heap value s.list.size.toNat 0 s.list.head).map fun r => (s, r)

/-! ## `delete` -/

/-- The loop of `delete`, `for (i = 0; i < index; i++) curr = curr->next;`. -/
def advance (h : Heap) : Nat → Option Nat → Option (Option Nat)
  | 0, curr => some curr
  | k + 1, curr =>
    match deref h curr with
    | none => none
    | some nd => advance h k nd.next

/-- The statement `if (curr->next) curr->next->prev = curr->prev;`. -/
def unlinkNext (h : Heap) (c : Nat) : Option Heap :=
  match h c with
  | none => none
  | some nd =>
    match nd.next with
    | none => some h
    | some n => setPrev h n nd.prev

/-- The statement `if (curr->prev) curr->prev->next = curr->next;`. -/
def unlinkPrev (h : Heap) (c : Nat) : Option Heap :=
  match h c with
  | none => none
  | some nd =>
    match nd.prev with
    | none => some h
    | some p => setNext h p nd.next

/-- Source: `bool delete(List* list, int index)`. -/
def delete (s : State) (index : Int) : Option (State × Bool) :=
  if index ≥ s.list.size ∨ s.list.size = 0 then some (s, false)
  else
    match advance s.heap index.toNat s.list.head with
    | none => none
    | some none => none
    | some (some c) =>
      match unlinkNext s.heap c with
      | none => none
      | some h1 =>
        match unlinkPrev h1 c with
        | none => none
        | some h2 =>
          let head1 :=
            if index = 0 then (deref h2 s.list.head).map fun nd => nd.next
            else some s.list.head
          let tail1 :=
            if index = s.list.size - 1 then (deref h2 s.list.tail).map fun nd => nd.prev
            else some s.list.tail
          match head1, tail1 with
          | some hd, some tl => some (⟨free h2 c, ⟨hd, tl, s.list.size - 1⟩⟩, true)
          | _, _ => none

/-! ## `print` -/

/-- The loop of `print`: the values written, in order. -/
def printLoop (h : Heap) : Nat → Option Nat → Option (List String)
  | 0, _ => some []
  | k + 1, curr =>
    match deref h curr with
    | none => none
    | some nd => (printLoop h k nd.next).map fun vs => nd.value :: vs

/-- Source: `void print(List* list)`: the values read by following `next` from `head`,
`size` times. -/
def print (s : State) : Option (List String) :=
  printLoop s.heap s.list.size.toNat s.list.head

/-! ## `main` -/

/-- The initial state of `main`: `*list = (List){NULL, NULL, 0};` on an empty heap. -/
def init : State := ⟨fun _ => none, ⟨none, none, 0⟩⟩

/-- Running a call that returns `(state, flag)` and keeping the state. -/
def andThen (r : Option State) (f : State → Option (State × Bool)) : Option State :=
  r.bind fun s => (f s).map Prod.fst

/-- The first three inserts of `main` (lines 124-126), `malloc` returning the
addresses 1, 2, 3. -/
def mainInserted3 : Option State :=
  andThen (andThen (andThen (some init)
    (fun s => insert s 1 "test" 0))
    (fun s => insert s 2 "test1" 0))
    (fun s => insert s 3 "test2" 2)

/-- The four valid inserts of `main` (lines 124-127), with node addresses 1..4. -/
def mainInserted : Option State :=
  andThen mainInserted3 fun s => insert s 4 "test3" 1

/-- The four values `main` prints on its `Comp:` line (lines 133-138):
`head->value`, `head->next->value`, `tail->prev->value`, `tail->value`. -/
def comp (s : State) : Option (String × String × String × String) :=
  (deref s.heap s.list.head).bind fun hd =>
  (deref s.heap hd.next).bind fun hn =>
  (deref s.heap s.list.tail).bind fun tl =>
  (deref s.heap tl.prev).bind fun tp =>
  some (hd.value, hn.value, tp.value, tl.value)

/-- State of `main` after `delete(list, 1)` (line 143). -/
def mainDeleted1 : Option State := andThen mainInserted fun s => delete s 1

/-- State of `main` after `delete(list, 2)` (line 145). -/
def mainDeleted2 : Option State := andThen mainDeleted1 fun s => delete s 2

/-- State of `main` after `delete(list, 0)` (line 147). -/
def mainDeleted3 : Option State := andThen mainDeleted2 fun s => delete s 0

/-! ## Well-formed lists -/

/-- Following `next` from `p` for `k` nodes: the addresses visited, and the
pointer reached after the last of them. `none` when the walk leaves the heap. -/
def walk (h : Heap) : Nat → Option Nat → Option (List Nat × Option Nat)
  | 0, p => some ([], p)
  | k + 1, p =>
    match p with
    | none => none
    | some a =>
      match h a with
      | none => none
      | some nd => (walk h k nd.next).map fun r => (a :: r.1, r.2)

/-- Well-formedness of the list record against the heap:
`head` is `NULL` iff `tail` is `NULL` iff `size` is 0; `head->prev` and
`tail->next` are `NULL`; following `next` from `head` visits exactly `size`
nodes (and then reaches `NULL`) and ends at `tail`; for two consecutive nodes
`a`, `b` of that walk, `a->next` is `b` and `b->prev` is `a`. -/
def WellFormed (s : State) : Prop :=
  (s.list.head = none ↔ s.list.tail = none) ∧
  (s.list.tail = none ↔ s.list.size = 0) ∧
  (∀ a, s.list.head = some a → ∃ nd, s.heap a = some nd ∧ nd.prev = none) ∧
  (∀ a, s.list.tail = some a → ∃ nd, s.heap a = some nd ∧ nd.next = none) ∧
  ∃ ps : List Nat,
    walk s.heap s.list.size.toNat s.list.head = some (ps, none) ∧
    ps.getLast? = s.list.tail ∧
    ∀ i a b, ps[i]? = some a → ps[i + 1]? = some b →
      (∃ na, s.heap a = some na ∧ na.next = some b) ∧
      (∃ nb, s.heap b = some nb ∧ nb.prev = some a)

/-- The cells of a list segment: address and stored value, in list order. -/
abbrev Cells := List (Nat × String)

/-- Address of the first cell, or `d` for the empty segment. -/
def first : Cells → Option Nat → Option Nat
  | [], d => d
  | c :: _, _ => some c.1

/-- Address of the last cell, or `d` for the empty segment. -/
def last : Cells → Option Nat → Option Nat
  | [], d => d
  | c :: cs, _ => last cs (some c.1)

/-- The heap `h` holds the doubly linked segment `cs`: every cell is live with
its value, the `prev` of the first cell is `q`, the `next` of the last cell is
`r`, and neighbours point at each other. -/
def Seg (h : Heap) : Option Nat → Cells → Option Nat → Prop
  | _, [], _ => True
  | q, c :: cs, r => h c.1 = some ⟨c.2, q, first cs r⟩ ∧ Seg h (some c.1) cs r

/-- The state represents the cells `cs`: an explicit form of `WellFormed`
that names the addresses and values of the nodes. -/
structure Repr (s : State) (cs : Cells) : Prop where
  size_eq : s.list.size = cs.length
  head_eq : s.list.head = first cs none
  tail_eq : s.list.tail = last cs none
  seg : Seg s.heap none cs none

/-- Following `prev` from `p` for `k` nodes: the values read, in the order read. -/
def readBack (h : Heap) : Nat → Option Nat → Option (List String)
  | 0, _ => some []
  | k + 1, curr =>
    match deref h curr with
    | none => none
    | some nd => (readBack h k nd.prev).map fun vs => nd.value :: vs

/-- The values read by following `prev` from `tail`, `size` times. -/
def printBack (s : State) : Option (List String) :=
  readBack s.heap s.list.size.toNat s.list.tail

/-- The cells at the addresses `ps`, with the values the heap stores there. -/
def cellsOf (h : Heap) (ps : List Nat) : Cells :=
  ps.map fun a => (a, match h a with | some nd => nd.value | none => "")

/-- The state after the first three inserts of `main`
(`"test"@0`, `"test1"@0`, `"test2"@2`, at addresses 1, 2, 3), written out. -/
def mainThree : State :=
  ⟨fun a =>
      if a = 1 then some ⟨"test", some 2, some 3⟩
      else if a = 2 then some ⟨"test1", none, some 1⟩
      else if a = 3 then some ⟨"test2", some 1, none⟩
      else none,
    ⟨some 2, some 3, 3⟩⟩

/-- The cells of `mainThree`. -/
def threeCells : Cells := [(2, "test1"), (1, "test"), (3, "test2")]

/-- The state reached by the four valid inserts of `main`, written out. -/
def mainState : State :=
  ⟨fun a =>
      if a = 1 then some ⟨"test", some 4, some 3⟩
      else if a = 2 then some ⟨"test1", none, some 4⟩
      else if a = 3 then some ⟨"test2", some 1, none⟩
      else if a = 4 then some ⟨"test3", some 2, some 1⟩
      else none,
    ⟨some 2, some 3, 4⟩⟩

/-- The cells of `mainState`. -/
def mainCells : Cells := [(2, "test1"), (4, "test3"), (1, "test"), (3, "test2")]

/-! ## Runs of `insert` and `delete` -/

/-- One call of `insert`: the address `malloc` returns for the new node, the value and
the index. -/
structure InsertCall where
  temp : Nat
  value : String
  index : Int
deriving DecidableEq

/-- Successive calls of `insert`, each of which returns true; `none` as soon as a call
returns false or has no defined result. -/
def insertAll (s : State) : List InsertCall → Option State
  | [] => some s
  | c :: cs =>
    match insert s c.temp c.value c.index with
    | some (s1, true) => insertAll s1 cs
    | _ => none

/-- Successive calls `delete(list, 0)`, `n` of them, each of which returns true; `none`
as soon as a call returns false or has no defined result. -/
def deleteFront (s : State) : Nat → Option State
  | 0 => some s
  | n + 1 =>
    match delete s 0 with
    | some (s1, true) => deleteFront s1 n
    | _ => none

/-- The list record of the initial empty state, `(List){NULL, NULL, 0}`. -/
def emptyList : LinkedList := ⟨none, none, 0⟩

/-- The four valid inserts of `main` as calls, with node addresses 1..4. -/
def mainCalls : List InsertCall :=
  [⟨1, "test", 0⟩, ⟨2, "test1", 0⟩, ⟨3, "test2", 2⟩, ⟨4, "test3", 1⟩]

/-- The state of `main` before its last delete (line 149), written out: the one node
`"test"` at address 1. -/
def mainOne : State :=
  ⟨fun a => if a = 1 then some ⟨"test", none, none⟩ else none, ⟨some 1, some 1, 1⟩⟩

/-- State of `main` after its last `delete(list, 0)` (line 149). -/
def mainDeleted4 : Option State := andThen mainDeleted3 fun s => delete s 0

end DList

namespace Clox

/-! ## Data model of `clox/object.h` -/

/-- Modelled from the spec: the tag of a `Value`. `value.h` is not among the
sources; the spec describes `Value` as a tagged union of Bool, Number, Nil and a
reference to a heap Object. -/
inductive ValueType where
  | VAL_BOOL
  | VAL_NIL
  | VAL_NUMBER
  | VAL_OBJ
deriving DecidableEq

/-- Source: `typedef enum { OBJ_STRING } ObjType;`. -/
inductive ObjType where
  | OBJ_STRING
deriving DecidableEq

/-- Modelled from the spec: the union `as` of a `Value` (declared in `value.h`), given
by its three views: the boolean, the number (as the bit pattern of the `double`) and
the object reference (an address). C overlays the three in one storage cell; here they
are independent fields, so every statement proved for all `ValueAs` covers every
overlay. -/
structure ValueAs where
  boolean : Bool
  number : Nat
  obj : Nat
deriving DecidableEq

/-- Modelled from the spec: `Value`, a tag and the union it discriminates. -/
structure Value where
  type : ValueType
  as : ValueAs
deriving DecidableEq

/-- Source: `struct Obj`: the type discriminant and the link of the heap list (`none` is `NULL`). -/
structure Obj where
  type : ObjType
  next : Option Nat
deriving DecidableEq

/-- Source: `struct ObjString`: the header, the length, the character buffer (by content, one
number per byte) and the 32-bit hash. -/
structure ObjString where
  obj : Obj
  length : Nat
  chars : List Nat
  hash : Nat
deriving DecidableEq

/-- The object heap. `ObjString` is the only object variant and starts with its `Obj`
header, so an `Obj*` and the `ObjString*` it is cast to are the same address. -/
abbrev Heap := Nat → Option ObjString

/-- Modelled from the spec: `IS_OBJ(value)` of `value.h`, the Value-level tag test. -/
def IS_OBJ (value : Value) : Bool :=
  decide (value.type = ValueType.VAL_OBJ)

/-- Source: `#define OBJ_TYPE(value) (value.as.obj->type)`; `none` when the reference is not a
live object. -/
def OBJ_TYPE (h : Heap) (value : Value) : Option ObjType :=
  (h value.as.obj).map fun o => o.obj.type

/-- Source: `static inline bool isObjType(Value value, ObjType type)`:
`IS_OBJ(value) && value.as.obj->type == type`. The right operand of `&&` is evaluated
only when the left one is true; its dereference is `none` when the reference is not a
live object. -/
def isObjType (h : Heap) (value : Value) (type : ObjType) : Option Bool :=
  if IS_OBJ value then (h value.as.obj).map fun o => decide (o.obj.type = type)
  else some false

/-- Source: `#define IS_STRING(value) isObjType(value, OBJ_STRING)`. -/
def IS_STRING (h : Heap) (value : Value) : Option Bool :=
  isObjType h value ObjType.OBJ_STRING

/-- Source: `#define AS_STRING(value) ((ObjString*)value.as.obj)`: the object field of the
union, cast; no test of the tag or of the discriminant. -/
def AS_STRING (value : Value) : Nat :=
  value.as.obj

/-- Source: `#define AS_CSTRING(value) (((ObjString*)value.as.obj)->chars)`; `none` when the
address is not a live object. -/
def AS_CSTRING (h : Heap) (value : Value) : Option (List Nat) :=
  (h (AS_STRING value)).map fun o => o.chars

/-- The failure the spec asks checked accessors to report. -/
inductive AccessError where
  | TypeMismatch
deriving DecidableEq

/-- The "as string object" accessor as the spec words it for a reimplementation:
validate the tag, fail with `TypeMismatch` otherwise. -/
def asStringChecked (h : Heap) (value : Value) : Except AccessError Nat :=
  if IS_STRING h value = some true then Except.ok value.as.obj
  else Except.error AccessError.TypeMismatch

/-- The "as raw bytes" accessor as the spec words it for a reimplementation. -/
def asCStringChecked (h : Heap) (value : Value) : Except AccessError (List Nat) :=
  if IS_STRING h value = some true then
    match h value.as.obj with
    | some o => Except.ok o.chars
    | none => Except.error AccessError.TypeMismatch
  else Except.error AccessError.TypeMismatch

/-- The value `NIL_VAL`: the nil tag, the union holding the number 0. -/
def nilValue : Value := ⟨ValueType.VAL_NIL, ⟨false, 0, 0⟩⟩

/-- A heap with no object. -/
def emptyHeap : Heap := fun _ => none

/-- The bytes of `"lox"`. -/
def loxBytes : List Nat := [108, 111, 120]

/-- A heap with one string object, `"lox"`, at address 16. -/
def loxHeap : Heap := fun a =>
  if a = 16 then some ⟨⟨ObjType.OBJ_STRING, none⟩, 3, loxBytes ++ [0], 0⟩ else none

/-- An object-reference Value pointing at address 16. -/
def loxValue : Value := ⟨ValueType.VAL_OBJ, ⟨false, 0, 16⟩⟩

/-! ## String construction and interning

`object.h` only declares `takeString` and `copyString`; their bodies, the allocator
and the interning table are not among the sources. They are modelled from §4.2 and
§4.3 of the spec. -/

/-- Modelled from the spec: the offset basis of the string hash. The spec fixes the
shape of the hash (FNV-1a, 32 bits) and not its numbers; the classic 32-bit FNV-1a
basis stands for "a fixed odd offset-basis constant". -/
def FNV_OFFSET_BASIS : Nat := 2166136261

/-- Modelled from the spec: the multiplier of the string hash, the classic 32-bit
FNV-1a prime standing for "a fixed prime". -/
def FNV_PRIME : Nat := 16777619

/-- Modelled from the spec: one step of the hash (the body of the missing `hashString`
loop): XOR the byte into the accumulator, then multiply by the prime, in 32-bit
arithmetic with wraparound. -/
def hashStep (hash byte : Nat) : Nat :=
  ((hash ^^^ (byte % 256)) * FNV_PRIME) % 2 ^ 32

/-- Modelled from the spec: the missing `hashString(key, length)`, the streaming hash
of the bytes `key[0..length)` starting from the offset basis. -/
def hashString (key : List Nat) (length : Nat) : Nat :=
  (key.take length).foldl hashStep FNV_OFFSET_BASIS

/-- The content of a string object: the first `length` bytes of its buffer. -/
def content (o : ObjString) : List Nat :=
  o.chars.take o.length

/-- Modelled from the spec: an entry of the Interning Registry, which maps
(hash, byte content) to the canonical string object. -/
structure Entry where
  hash : Nat
  chars : List Nat
  ref : Nat
deriving DecidableEq

/-- Modelled from the spec: the process-wide state of the missing `object.c`: the
object heap, the head of the heap list, the Interning Registry, and the allocator (the
next address it hands out). -/
structure VM where
  heap : Heap
  objects : Option Nat
  strings : List Entry
  nextFree : Nat

/-- Modelled from the spec: the state at runtime start: no object, an empty heap list
and an empty registry. -/
def initVM : VM := ⟨fun _ => none, none, [], 1⟩

/-- Modelled from the spec: lookup in the Interning Registry by (hash, content). The
hash is a filter; the bytes are compared. -/
def lookup (strings : List Entry) (chars : List Nat) (hash : Nat) : Option Nat :=
  (strings.find? fun e => decide (e.hash = hash ∧ e.chars = chars)).map fun e => e.ref

/-- Modelled from the spec: the missing allocation path of a string object (§4.2
`allocate`, §4.3): reserve storage, set the discriminant, splice the object onto the
head of the heap list, register it in the Interning Registry and return it. -/
def allocateString (vm : VM) (chars : List Nat) (length hash : Nat) : Nat × VM :=
  (vm.nextFree,
    ⟨fun b =>
        if b = vm.nextFree then some ⟨⟨ObjType.OBJ_STRING, vm.objects⟩, length, chars, hash⟩
        else vm.heap b,
      some vm.nextFree,
      ⟨hash, chars.take length, vm.nextFree⟩ :: vm.strings,
      vm.nextFree + 1⟩)

/-- Modelled from the spec: the missing body of `takeString(chars, length)` (§4.3):
check the registry; if the content is already interned, release the buffer and return
the canonical object; otherwise wrap the buffer itself in a new object. -/
def takeString (vm : VM) (chars : List Nat) (length : Nat) : Nat × VM :=
  match lookup vm.strings (chars.take length) (hashString chars length) with
  | some r => (r, vm)
  | none => allocateString vm chars length (hashString chars length)

/-- Modelled from the spec: the missing body of `copyString(chars, length)` (§4.3):
hash `chars[0..length)`, check the registry by (hash, content); if found return the
canonical object, otherwise copy `length` bytes plus a terminator into a new buffer and
build the object on it. -/
def copyString (vm : VM) (chars : List Nat) (length : Nat) : Nat × VM :=
  match lookup vm.strings (chars.take length) (hashString chars length) with
  | some r => (r, vm)
  | none => allocateString vm (chars.take length ++ [0]) length (hashString chars length)

/-- The two constructors. -/
inductive Ctor where
  | take
  | copy
deriving DecidableEq

/-- One constructor call: which constructor, the buffer and the length passed. -/
structure Call where
  kind : Ctor
  chars : List Nat
  length : Nat
deriving DecidableEq

/-- The byte sequence a call denotes, `chars[0..length)`. -/
def Call.content (c : Call) : List Nat :=
  c.chars.take c.length

/-- The buffer holds the `length` bytes the call says it does. -/
def Call.Valid (c : Call) : Prop :=
  c.length ≤ c.chars.length

/-- Performing a call: the reference returned and the state after. -/
def construct (vm : VM) (c : Call) : Nat × VM :=
  match c.kind with
  | Ctor.take => takeString vm c.chars c.length
  | Ctor.copy => copyString vm c.chars c.length

/-- Performing calls in sequence: the references returned, in order, and the last state. -/
def run (vm : VM) : List Call → List Nat × VM
  | [] => ([], vm)
  | c :: cs => ((construct vm c).1 :: (run (construct vm c).2 cs).1, (run (construct vm c).2 cs).2)

/-- The invariant of the Interning Registry: every live object lies below the allocator
mark, stores the hash of its content and is the registry's answer for that content;
every registry entry refers to a live object with the entry's content and hash. -/
structure Interned (vm : VM) : Prop where
  registered : ∀ a o, vm.heap a = some o →
    a < vm.nextFree ∧ o.hash = hashString o.chars o.length ∧
      lookup vm.strings (content o) o.hash = some a
  live : ∀ e, e ∈ vm.strings →
    ∃ o, vm.heap e.ref = some o ∧ content o = e.chars ∧ o.hash = e.hash

/-- The bytes of `"hello"`. -/
def helloBytes : List Nat := [104, 101, 108, 108, 111]

/-- The bytes of `"foo"`. -/
def fooBytes : List Nat := [102, 111, 111]

/-- The bytes of `"bar"`. -/
def barBytes : List Nat := [98, 97, 114]

/-- The end-to-end scenario of the spec: `"foo"`, `"bar"`, `"foo"` through mixed
constructor calls (the `takeString` buffers carry their terminator, the `copyString`
source continues past the bytes it names). -/
def fooBarFoo : List Call :=
  [⟨Ctor.copy, fooBytes ++ barBytes, 3⟩, ⟨Ctor.take, barBytes ++ [0], 3⟩,
    ⟨Ctor.take, fooBytes ++ [0], 3⟩]

/-! ## Guarded reads of the union -/

/-- Modelled from the spec: reading the object field of a `Value` under the invariant
"the tag always matches the populated field; code must never read a field whose tag
does not match". The read has a result only when the tag is the object tag. -/
def readObj (value : Value) : Option Nat :=
  if value.type = ValueType.VAL_OBJ then some value.as.obj else none

/-- The body of `isObjType`, `IS_OBJ(value) && value.as.obj->type == type`, with its
read of `value.as.obj` going through `readObj`: `none` when it reads the object field
of a Value with another tag, or dereferences a reference that is not a live object. -/
def isObjTypeGuarded (h : Heap) (value : Value) (type : ObjType) : Option Bool :=
  if IS_OBJ value then
    (readObj value).bind fun a => (h a).map fun o => decide (o.obj.type = type)
  else some false

/-- A boolean Value, `BOOL_VAL(true)`, whose union holds no object reference; the
object view reads as the address 7, where nothing lives. -/
def boolValue : Value := ⟨ValueType.VAL_BOOL, ⟨true, 0, 7⟩⟩

end Clox

example : DList.mainInserted.bind DList.print = some ["test1", "test3", "test", "test2"] := by
  decide

namespace DList

/-! ## Segments -/

theorem first_append (l r : Cells) (d : Option Nat) :
    first (l ++ r) d = first l (first r d) := by
  cases l <;> rfl

theorem last_append (l r : Cells) (d : Option Nat) :
    last (l ++ r) d = last r (last l d) := by
  induction l generalizing d with
  | nil => rfl
  | cons c l ih => exact ih _

theorem seg_append (h : Heap) (l r : Cells) (q n : Option Nat) :
    Seg h q (l ++ r) n ↔ Seg h q l (first r n) ∧ Seg h (last l q) r n := by
  induction l generalizing q with
  | nil => simp [Seg, last]
  | cons c l ih =>
    show (h c.1 = some ⟨c.2, q, first (l ++ r) n⟩ ∧ Seg h (some c.1) (l ++ r) n) ↔ _
    rw [ih, first_append]
    simp only [Seg, last, and_assoc]

theorem last_none_eq_none (l : Cells) : last l none = none ↔ l = [] := by
  constructor
  · intro hl
    induction l using List.reverseRecOn with
    | nil => rfl
    | append_singleton l c _ => rw [last_append] at hl; simp [last] at hl
  · rintro rfl; rfl

theorem first_none_eq_none (l : Cells) : first l none = none ↔ l = [] := by
  cases l <;> simp [first]

theorem last_some_ne_none (l : Cells) (a : Nat) : last l (some a) ≠ none := by
  induction l generalizing a with
  | nil => simp [last]
  | cons c l ih => exact ih _

theorem last_mem (l : Cells) (d : Option Nat) (b : Nat) (hl : last l d = some b) :
    d = some b ∨ b ∈ l.map Prod.fst := by
  induction l generalizing d with
  | nil => exact Or.inl hl
  | cons c l ih =>
    rcases ih _ hl with h1 | h1
    · right; simp only [Option.some.injEq] at h1; simp [h1]
    · right; simp only [List.map_cons, List.mem_cons]; exact Or.inr h1

theorem first_mem (l : Cells) (d : Option Nat) (b : Nat) (hl : first l d = some b) :
    d = some b ∨ b ∈ l.map Prod.fst := by
  cases l with
  | nil => exact Or.inl hl
  | cons c l => right; simp only [first, Option.some.injEq] at hl; simp [hl]

/-! ## Traversals of a segment -/

theorem seek_seg (h : Heap) (l r : Cells) (q n : Option Nat) (hs : Seg h q (l ++ r) n) :
    seek h l.length q (first (l ++ r) n) = some (last l q, first r n) := by
  induction l generalizing q with
  | nil => rfl
  | cons c l ih =>
    obtain ⟨hc, hrest⟩ := hs
    simp only [List.cons_append, first, List.length_cons, seek, deref, hc]
    exact ih _ hrest

theorem advance_seg (h : Heap) (l r : Cells) (q n : Option Nat) (hs : Seg h q (l ++ r) n) :
    advance h l.length (first (l ++ r) n) = some (first r n) := by
  induction l generalizing q with
  | nil => rfl
  | cons c l ih =>
    obtain ⟨hc, hrest⟩ := hs
    simp only [List.cons_append, first, List.length_cons, advance, deref, hc]
    exact ih _ hrest

theorem printLoop_seg (h : Heap) (cs : Cells) (q n : Option Nat) (hs : Seg h q cs n) :
    printLoop h cs.length (first cs n) = some (cs.map Prod.snd) := by
  induction cs generalizing q with
  | nil => rfl
  | cons c cs ih =>
    obtain ⟨hc, hrest⟩ := hs
    show printLoop h (cs.length + 1) (some c.1) = _
    simp only [printLoop, deref, hc, ih _ hrest]
    rfl

theorem walk_seg (h : Heap) (cs : Cells) (q n : Option Nat) (hs : Seg h q cs n) :
    walk h cs.length (first cs n) = some (cs.map Prod.fst, n) := by
  induction cs generalizing q with
  | nil => rfl
  | cons c cs ih =>
    obtain ⟨hc, hrest⟩ := hs
    show walk h (cs.length + 1) (some c.1) = _
    simp only [walk, hc, ih _ hrest]
    rfl

/-! ## Frame and distinctness -/

theorem seg_congr (h h1 : Heap) (cs : Cells) (q n : Option Nat) (hs : Seg h q cs n)
    (hagree : ∀ a, a ∈ cs.map Prod.fst → h1 a = h a) : Seg h1 q cs n := by
  induction cs generalizing q with
  | nil => trivial
  | cons c cs ih =>
    obtain ⟨hc, hrest⟩ := hs
    refine ⟨?_, ih _ hrest fun a ha => hagree a ?_⟩
    · rw [hagree c.1 (by simp)]; exact hc
    · simp only [List.map_cons, List.mem_cons]; exact Or.inr ha

theorem seg_mem (h : Heap) (cs : Cells) (q n : Option Nat) (hs : Seg h q cs n)
    (c : Nat × String) (hc : c ∈ cs) :
    ∃ l r, cs = l ++ c :: r ∧ h c.1 = some ⟨c.2, last l q, first r n⟩ := by
  obtain ⟨l, r, rfl⟩ := List.append_of_mem hc
  refine ⟨l, r, rfl, ?_⟩
  rw [seg_append] at hs
  exact hs.2.1

theorem seg_live (h : Heap) (cs : Cells) (q n : Option Nat) (hs : Seg h q cs n)
    (a : Nat) (ha : a ∈ cs.map Prod.fst) : h a ≠ none := by
  obtain ⟨c, hc, rfl⟩ := List.mem_map.1 ha
  obtain ⟨l, r, -, hh⟩ := seg_mem h cs q n hs c hc
  simp [hh]

theorem seg_nodup (h : Heap) (cs : Cells) (n : Option Nat) (hs : Seg h none cs n) :
    (cs.map Prod.fst).Nodup := by
  induction cs using List.reverseRecOn generalizing n with
  | nil => simp
  | append_singleton init c ih =>
    rw [seg_append] at hs
    obtain ⟨hinit, hc, -⟩ := hs
    have hnd := ih _ hinit
    rw [List.map_append, List.nodup_append]
    refine ⟨hnd, by simp, ?_⟩
    intro a ha hac
    simp only [List.map_cons, List.map_nil, List.mem_singleton] at hac
    subst hac
    obtain ⟨c1, hc1, hfst⟩ := List.mem_map.1 ha
    obtain ⟨l, r, hsplit, hh⟩ := seg_mem h init none _ hinit c1 hc1
    rw [hfst, hc] at hh
    simp only [Option.some.injEq, Node.mk.injEq] at hh
    have hlast : last r (some c1.1) = last l none := by
      rw [← hh.2.1, hsplit, last_append]; rfl
    rw [hsplit, List.map_append, List.nodup_append] at hnd
    obtain ⟨-, -, hdisj⟩ := hnd
    cases hl : last l none with
    | none => rw [hl] at hlast; exact absurd hlast (last_some_ne_none r c1.1)
    | some b =>
      rw [hl] at hlast
      have hbl : b ∈ l.map Prod.fst := by
        rcases last_mem l none b hl with h1 | h1
        · cases h1
        · exact h1
      have hbr : b ∈ (c1 :: r).map Prod.fst := by
        rcases last_mem r (some c1.1) b hlast with h1 | h1
        · simp only [Option.some.injEq] at h1; simp [h1]
        · simp only [List.map_cons, List.mem_cons]; exact Or.inr h1
      exact hdisj hbl hbr

/-! ## `WellFormed` and `Repr` describe the same states -/

theorem getLast?_map_fst (cs : Cells) : (cs.map Prod.fst).getLast? = last cs none := by
  induction cs using List.reverseRecOn with
  | nil => rfl
  | append_singleton init c _ => rw [last_append]; simp [last]

theorem seg_consecutive (h : Heap) (cs : Cells) (q n : Option Nat) (hs : Seg h q cs n)
    (i a b : Nat) (ha : (cs.map Prod.fst)[i]? = some a)
    (hb : (cs.map Prod.fst)[i + 1]? = some b) :
    (∃ na, h a = some na ∧ na.next = some b) ∧ (∃ nb, h b = some nb ∧ nb.prev = some a) := by
  induction cs generalizing q i with
  | nil => simp at ha
  | cons c cs ih =>
    obtain ⟨hc, hrest⟩ := hs
    cases i with
    | zero =>
      simp only [List.map_cons, List.getElem?_cons_zero, Option.some.injEq] at ha
      subst ha
      cases cs with
      | nil => simp at hb
      | cons c1 cs1 =>
        simp only [List.map_cons, List.getElem?_cons_succ, List.getElem?_cons_zero,
          Option.some.injEq] at hb
        subst hb
        exact ⟨⟨_, hc, rfl⟩, ⟨_, hrest.1, rfl⟩⟩
    | succ j =>
      simp only [List.map_cons, List.getElem?_cons_succ] at ha hb
      exact ih _ hrest j ha hb

theorem repr_wellFormed (s : State) (cs : Cells) (hr : Repr s cs) : WellFormed s := by
  obtain ⟨hsize, hhead, htail, hseg⟩ := hr
  refine ⟨?_, ?_, ?_, ?_, cs.map Prod.fst, ?_, ?_, ?_⟩
  · rw [hhead, htail, first_none_eq_none, last_none_eq_none]
  · rw [htail, hsize, last_none_eq_none]
    constructor
    · rintro rfl; rfl
    · intro hl; exact List.length_eq_zero.1 (by exact_mod_cast hl)
  · intro a ha
    rw [hhead] at ha
    cases cs with
    | nil => cases ha
    | cons c cs1 =>
      simp only [first, Option.some.injEq] at ha
      subst ha
      exact ⟨_, hseg.1, rfl⟩
  · intro a ha
    rw [htail] at ha
    induction cs using List.reverseRecOn with
    | nil => cases ha
    | append_singleton init c _ =>
      rw [last_append] at ha
      simp only [last, Option.some.injEq] at ha
      subst ha
      rw [seg_append] at hseg
      exact ⟨_, hseg.2.1, rfl⟩
  · rw [hsize, hhead]
    simpa using walk_seg s.heap cs none none hseg
  · rw [htail]; exact getLast?_map_fst cs
  · intro i a b ha hb
    exact seg_consecutive s.heap cs none none hseg i a b ha hb

theorem cellsOf_fst (h : Heap) (ps : List Nat) : (cellsOf h ps).map Prod.fst = ps := by
  simp [cellsOf, Function.comp_def]

theorem walk_seg_of (h : Heap) (k : Nat) (p q e : Option Nat) (ps : List Nat)
    (hw : walk h k p = some (ps, e))
    (hq : ∀ a, ps.head? = some a → ∃ nd, h a = some nd ∧ nd.prev = q)
    (hcons : ∀ i a b, ps[i]? = some a → ps[i + 1]? = some b →
      ∃ nb, h b = some nb ∧ nb.prev = some a) :
    Seg h q (cellsOf h ps) e ∧ ps.length = k ∧ first (cellsOf h ps) e = p := by
  induction k generalizing p q ps with
  | zero =>
    simp only [walk, Option.some.injEq, Prod.mk.injEq] at hw
    obtain ⟨rfl, rfl⟩ := hw
    exact ⟨trivial, rfl, rfl⟩
  | succ k ih =>
    cases p with
    | none => simp [walk] at hw
    | some a =>
      simp only [walk] at hw
      cases hha : h a with
      | none => simp [hha] at hw
      | some nd =>
        simp only [hha] at hw
        cases hwk : walk h k nd.next with
        | none => simp [hwk] at hw
        | some r =>
          obtain ⟨ps1, e1⟩ := r
          simp only [hwk, Option.map_some', Option.some.injEq, Prod.mk.injEq] at hw
          obtain ⟨rfl, rfl⟩ := hw
          obtain ⟨nd0, hnd0, hprev⟩ := hq a rfl
          rw [hha] at hnd0
          cases hnd0
          have hih := ih nd.next (some a) ps1 hwk
            (fun b hb => hcons 0 a b (by simp) (by
              cases ps1 with
              | nil => simp at hb
              | cons x xs => simpa using hb))
            (fun i x y hx hy => hcons (i + 1) x y (by simpa using hx) (by simpa using hy))
          obtain ⟨hseg, hlen, hfirst⟩ := hih
          refine ⟨?_, by simp [hlen], rfl⟩
          show h a = some ⟨_, q, first (cellsOf h ps1) e1⟩ ∧ Seg h (some a) (cellsOf h ps1) e1
          refine ⟨?_, hseg⟩
          rw [hfirst, hha, ← hprev]
          simp only [hha]

theorem wellFormed_repr (s : State) (hw : WellFormed s) : ∃ cs, Repr s cs := by
  obtain ⟨-, htz, hhd, -, ps, hwalk, hlast, hcons⟩ := hw
  have hnonneg : 0 ≤ s.list.size := by
    by_contra hneg
    have h0 : s.list.size.toNat = 0 := by omega
    rw [h0] at hwalk
    simp only [walk, Option.some.injEq, Prod.mk.injEq] at hwalk
    rw [← hwalk.1] at hlast
    have := htz.1 hlast.symm
    omega
  have hhead : ∀ a, ps.head? = some a → s.list.head = some a := by
    intro a ha
    cases hk : s.list.size.toNat with
    | zero =>
      rw [hk] at hwalk
      simp only [walk, Option.some.injEq, Prod.mk.injEq] at hwalk
      rw [← hwalk.1] at ha
      cases ha
    | succ k =>
      rw [hk] at hwalk
      cases hp : s.list.head with
      | none => simp [hp, walk] at hwalk
      | some b =>
        rw [hp] at hwalk
        simp only [walk] at hwalk
        cases hb : s.heap b with
        | none => simp [hb] at hwalk
        | some nd =>
          simp only [hb] at hwalk
          cases hwk : walk s.heap k nd.next with
          | none => simp [hwk] at hwalk
          | some r =>
            simp only [hwk, Option.map_some', Option.some.injEq, Prod.mk.injEq] at hwalk
            rw [← hwalk.1] at ha
            simpa using ha
  obtain ⟨hseg, hlen, hfirst⟩ := walk_seg_of s.heap _ _ none none ps hwalk
    (fun a ha => hhd a (hhead a ha)) (fun i a b ha hb => (hcons i a b ha hb).2)
  refine ⟨cellsOf s.heap ps, ?_, hfirst.symm, ?_, hseg⟩
  · simp only [cellsOf, List.length_map, hlen]
    omega
  · rw [← getLast?_map_fst, cellsOf_fst, hlast]

theorem wellFormed_iff_repr (s : State) : WellFormed s ↔ ∃ cs, Repr s cs :=
  ⟨wellFormed_repr s, fun ⟨cs, hr⟩ => repr_wellFormed s cs hr⟩

theorem print_repr (s : State) (cs : Cells) (hr : Repr s cs) :
    print s = some (cs.map Prod.snd) := by
  unfold print
  rw [hr.size_eq, hr.head_eq]
  simpa using printLoop_seg s.heap cs none none hr.seg

/-! ## `insert` on a represented list -/

theorem store_same (h : Heap) (a : Nat) (nd : Node) : store h a nd a = some nd := by
  simp [store]

theorem store_other (h : Heap) (a b : Nat) (nd : Node) (hb : b ≠ a) :
    store h a nd b = h b := by
  simp [store, hb]

theorem last_of_ne_nil (r : Cells) (d e : Option Nat) (hr : r ≠ []) : last r d = last r e := by
  cases r with
  | nil => exact absurd rfl hr
  | cons c r => rfl

theorem first_of_ne_nil (l : Cells) (d e : Option Nat) (hl : l ≠ []) :
    first l d = first l e := by
  cases l with
  | nil => exact absurd rfl hl
  | cons c l => rfl

theorem linkPrev_spec (h0 : Heap) (temp : Nat) (v : String) (l : Cells) (n0 : Option Nat)
    (hseg : Seg h0 none l n0) (htemp : h0 temp = some ⟨v, none, none⟩)
    (hnot : temp ∉ l.map Prod.fst) :
    ∃ h1, linkPrev h0 temp (last l none) = some h1 ∧ Seg h1 none l (some temp) ∧
      h1 temp = some ⟨v, last l none, none⟩ ∧
      ∀ a, a ∉ l.map Prod.fst → a ≠ temp → h1 a = h0 a := by
  have hnd := seg_nodup h0 l n0 hseg
  induction l using List.reverseRecOn with
  | nil => exact ⟨h0, rfl, trivial, htemp, fun _ _ _ => rfl⟩
  | append_singleton init p _ =>
    rw [seg_append] at hseg
    obtain ⟨hinit, hp, -⟩ := hseg
    have hpt : p.1 ≠ temp := by
      intro he; apply hnot; simp [← he]
    rw [List.map_append, List.nodup_append] at hnd
    have hpi : p.1 ∉ init.map Prod.fst := fun hx => hnd.2.2 hx (by simp)
    have hlast : last (init ++ [p]) none = some p.1 := by rw [last_append]; rfl
    rw [hlast]
    refine ⟨store (store h0 temp ⟨v, some p.1, none⟩) p.1 ⟨p.2, last init none, some temp⟩,
      ?_, ?_, ?_, ?_⟩
    · simp only [linkPrev, setPrev, htemp, Option.some_bind, setNext,
        store_other _ _ _ _ hpt, hp]
    · rw [seg_append]
      refine ⟨seg_congr h0 _ init none _ hinit fun a ha => ?_, ?_, trivial⟩
      · have h1 : a ≠ p.1 := fun he => hpi (he ▸ ha)
        have h2 : a ≠ temp := fun he => hnot (by simp [← he, ha])
        rw [store_other _ _ _ _ h1, store_other _ _ _ _ h2]
      · exact store_same _ _ _
    · rw [store_other _ _ _ _ hpt.symm, store_same]
    · intro a ha hat
      have h1 : a ≠ p.1 := fun he => ha (by simp [he])
      rw [store_other _ _ _ _ h1, store_other _ _ _ _ hat]

theorem linkNext_spec (h1 : Heap) (temp : Nat) (v : String) (pv q0 : Option Nat) (r : Cells)
    (hseg : Seg h1 q0 r none) (htemp : h1 temp = some ⟨v, pv, none⟩)
    (hnot : temp ∉ r.map Prod.fst) (hnd : (r.map Prod.fst).Nodup) :
    ∃ h2, linkNext h1 temp (first r none) = some h2 ∧ Seg h2 (some temp) r none ∧
      h2 temp = some ⟨v, pv, first r none⟩ ∧
      ∀ a, a ∉ r.map Prod.fst → a ≠ temp → h2 a = h1 a := by
  cases r with
  | nil => exact ⟨h1, rfl, trivial, htemp, fun _ _ _ => rfl⟩
  | cons c r =>
    obtain ⟨hc, hrest⟩ := hseg
    have hct : c.1 ≠ temp := by
      intro he; apply hnot; simp [← he]
    have hcr : c.1 ∉ r.map Prod.fst := by
      simp only [List.map_cons, List.nodup_cons] at hnd
      exact hnd.1
    refine ⟨store (store h1 temp ⟨v, pv, some c.1⟩) c.1 ⟨c.2, some temp, first r none⟩,
      ?_, ?_, ?_, ?_⟩
    · simp only [first, linkNext, setNext, htemp, Option.some_bind, setPrev,
        store_other _ _ _ _ hct, hc]
    · refine ⟨store_same _ _ _, seg_congr h1 _ r _ _ hrest fun a ha => ?_⟩
      have h3 : a ≠ c.1 := fun he => hcr (he ▸ ha)
      have h4 : a ≠ temp := fun he => hnot (by simp [← he, ha])
      rw [store_other _ _ _ _ h3, store_other _ _ _ _ h4]
    · rw [store_other _ _ _ _ hct.symm, store_same]; rfl
    · intro a ha hat
      have h3 : a ≠ c.1 := fun he => ha (by simp [he])
      rw [store_other _ _ _ _ h3, store_other _ _ _ _ hat]

theorem insert_split (s : State) (l r : Cells) (temp : Nat) (v : String)
    (hr : Repr s (l ++ r)) (hfresh : s.heap temp = none)
    (hcap : ((l ++ r).length : Int) < CAPACITY) :
    ∃ s1, insert s temp v (l.length : Int) = some (s1, true) ∧
      Repr s1 (l ++ (temp, v) :: r) := by
  obtain ⟨hsize, hhead, htail, hseg⟩ := hr
  have hnd := seg_nodup _ _ _ hseg
  have htc : temp ∉ (l ++ r).map Prod.fst := fun hx => seg_live _ _ _ _ hseg temp hx hfresh
  rw [List.map_append, List.mem_append, not_or] at htc
  rw [List.map_append, List.nodup_append] at hnd
  obtain ⟨hndl, hndr, hdisj⟩ := hnd
  -- the freshly allocated node
  have hseg0 : Seg (store s.heap temp ⟨v, none, none⟩) none (l ++ r) none :=
    seg_congr _ _ _ _ _ hseg fun a ha => store_other _ _ _ _ fun he =>
      seg_live _ _ _ _ hseg a ha (he ▸ hfresh)
  rw [seg_append] at hseg0
  obtain ⟨hl0, hr0⟩ := hseg0
  obtain ⟨h1, hlink1, hl1, ht1, hfr1⟩ :=
    linkPrev_spec _ temp v l _ hl0 (store_same _ _ _) htc.1
  have hr1 : Seg h1 (last l none) r none :=
    seg_congr _ _ _ _ _ hr0 fun a ha =>
      hfr1 a (fun hx => hdisj hx ha) fun he => htc.2 (he ▸ ha)
  obtain ⟨h2, hlink2, hr2, ht2, hfr2⟩ :=
    linkNext_spec h1 temp v _ _ r hr1 ht1 htc.2 hndr
  have hl2 : Seg h2 none l (some temp) :=
    seg_congr _ _ _ _ _ hl1 fun a ha =>
      hfr2 a (fun hx => hdisj ha hx) fun he => htc.1 (he ▸ ha)
  have hguard : ¬ (((l.length : Nat) : Int) > s.list.size ∨ s.list.size = CAPACITY) := by
    rw [hsize]; simp only [List.length_append, Nat.cast_add] at hcap ⊢; omega
  have hseek : seek s.heap ((l.length : Int)).toNat none s.list.head
      = some (last l none, first r none) := by
    rw [hhead, Int.toNat_ofNat]; exact seek_seg _ _ _ _ _ hseg
  refine ⟨⟨h2, ⟨if ((l.length : Nat) : Int) = 0 then some temp else s.list.head,
    if ((l.length : Nat) : Int) = s.list.size then some temp else s.list.tail,
    s.list.size + 1⟩⟩, ?_, ?_⟩
  · simp only [insert, if_neg hguard, hseek, hlink1, hlink2]
  · refine ⟨?_, ?_, ?_, ?_⟩
    · simp only [hsize, List.length_append, List.length_cons, Nat.cast_add, Nat.cast_one]
      omega
    · show (if ((l.length : Nat) : Int) = 0 then some temp else s.list.head) = _
      cases l with
      | nil => simp [first]
      | cons c l => rw [hhead]; simp [first]; omega
    · show (if ((l.length : Nat) : Int) = s.list.size then some temp else s.list.tail) = _
      rw [last_append, hsize, htail]
      cases r with
      | nil => simp [last]
      | cons c r =>
        rw [last_append]
        simp only [List.length_append, List.length_cons, Nat.cast_add, Nat.cast_one, last]
        rw [if_neg (by omega)]
    · rw [seg_append]
      exact ⟨hl2, ht2, hr2⟩

/-! ## `delete` on a represented list -/

theorem free_other (h : Heap) (a b : Nat) (hb : b ≠ a) : free h a b = h b := by
  simp [free, hb]

theorem unlinkNext_spec (h : Heap) (c : Nat × String) (pv : Option Nat) (r : Cells)
    (hseg : Seg h (some c.1) r none) (hc : h c.1 = some ⟨c.2, pv, first r none⟩)
    (hnot : c.1 ∉ r.map Prod.fst) (hnd : (r.map Prod.fst).Nodup) :
    ∃ h1, unlinkNext h c.1 = some h1 ∧ Seg h1 pv r none ∧
      ∀ a, a ∉ r.map Prod.fst → h1 a = h a := by
  cases r with
  | nil => exact ⟨h, by simp [unlinkNext, hc, first], trivial, fun _ _ => rfl⟩
  | cons c2 r2 =>
    obtain ⟨hc2, hrest⟩ := hseg
    have hcr : c2.1 ∉ r2.map Prod.fst := by
      simp only [List.map_cons, List.nodup_cons] at hnd
      exact hnd.1
    refine ⟨store h c2.1 ⟨c2.2, pv, first r2 none⟩, ?_, ?_, ?_⟩
    · simp only [unlinkNext, hc, first, setPrev, hc2]
    · refine ⟨store_same _ _ _, seg_congr h _ r2 _ _ hrest fun a ha => ?_⟩
      exact store_other _ _ _ _ fun he => hcr (he ▸ ha)
    · intro a ha
      exact store_other _ _ _ _ fun he => ha (by simp [he])

theorem unlinkPrev_spec (h1 : Heap) (c : Nat × String) (nx : Option Nat) (l : Cells)
    (hseg : Seg h1 none l (some c.1)) (hc : h1 c.1 = some ⟨c.2, last l none, nx⟩) :
    ∃ h2, unlinkPrev h1 c.1 = some h2 ∧ Seg h2 none l nx ∧
      ∀ a, a ∉ l.map Prod.fst → h2 a = h1 a := by
  have hnd := seg_nodup h1 l _ hseg
  induction l using List.reverseRecOn with
  | nil => exact ⟨h1, by simp [unlinkPrev, hc, last], trivial, fun _ _ => rfl⟩
  | append_singleton init p _ =>
    rw [seg_append] at hseg
    obtain ⟨hinit, hp, -⟩ := hseg
    rw [List.map_append, List.nodup_append] at hnd
    have hpi : p.1 ∉ init.map Prod.fst := fun hx => hnd.2.2 hx (by simp)
    have hlast : last (init ++ [p]) none = some p.1 := by rw [last_append]; rfl
    rw [hlast] at hc
    refine ⟨store h1 p.1 ⟨p.2, last init none, nx⟩, ?_, ?_, ?_⟩
    · simp only [unlinkPrev, hc, setNext, hp]
    · rw [seg_append]
      refine ⟨seg_congr h1 _ init none _ hinit fun a ha => ?_, store_same _ _ _, trivial⟩
      exact store_other _ _ _ _ fun he => hpi (he ▸ ha)
    · intro a ha
      exact store_other _ _ _ _ fun he => ha (by simp [he])

theorem delete_split (s : State) (l r : Cells) (c : Nat × String)
    (hr : Repr s (l ++ c :: r)) :
    ∃ s1, delete s (l.length : Int) = some (s1, true) ∧ Repr s1 (l ++ r) := by
  obtain ⟨hsize, hhead, htail, hseg⟩ := hr
  have hnd := seg_nodup _ _ _ hseg
  rw [List.map_append, List.nodup_append, List.map_cons, List.nodup_cons] at hnd
  obtain ⟨hndl, ⟨hcr, hndr⟩, hdisj⟩ := hnd
  have hcl : c.1 ∉ l.map Prod.fst := fun hx => hdisj hx (by simp)
  have hadv : advance s.heap ((l.length : Int)).toNat s.list.head = some (some c.1) := by
    rw [hhead, Int.toNat_ofNat]; exact advance_seg _ _ _ _ _ hseg
  rw [seg_append] at hseg
  obtain ⟨hl0, hc0, hr0⟩ := hseg
  obtain ⟨h1, hun1, hr1, hfr1⟩ := unlinkNext_spec s.heap c _ r hr0 hc0 hcr hndr
  have hl1 : Seg h1 none l (some c.1) :=
    seg_congr _ _ _ _ _ hl0 fun a ha => hfr1 a fun hx => hdisj ha (by simp [hx])
  have hc1 : h1 c.1 = some ⟨c.2, last l none, first r none⟩ := by rw [hfr1 c.1 hcr]; exact hc0
  obtain ⟨h2, hun2, hl2, hfr2⟩ := unlinkPrev_spec h1 c _ l hl1 hc1
  have hr2 : Seg h2 (last l none) r none :=
    seg_congr _ _ _ _ _ hr1 fun a ha => hfr2 a fun hx => hdisj hx (by simp [ha])
  have hc2 : h2 c.1 = some ⟨c.2, last l none, first r none⟩ := by rw [hfr2 c.1 hcl]; exact hc1
  have hguard : ¬ (((l.length : Nat) : Int) ≥ s.list.size ∨ s.list.size = 0) := by
    rw [hsize]; simp only [List.length_append, List.length_cons, Nat.cast_add]; omega
  have hhd : (if ((l.length : Nat) : Int) = 0
        then (deref h2 s.list.head).map fun nd => nd.next
        else some s.list.head) = some (first (l ++ r) none) := by
    rw [hhead]
    cases l with
    | nil => simp [first, deref, hc2]
    | cons p l => rw [if_neg (by simp only [List.length_cons, Nat.cast_add]; omega)]; rfl
  have htl : (if ((l.length : Nat) : Int) = s.list.size - 1
        then (deref h2 s.list.tail).map fun nd => nd.prev
        else some s.list.tail) = some (last (l ++ r) none) := by
    rw [htail, hsize, last_append, last_append]
    cases r with
    | nil => simp [last, deref, hc2]
    | cons c3 r3 =>
      rw [if_neg (by simp only [List.length_append, List.length_cons, Nat.cast_add]; omega)]
      rfl
  refine ⟨⟨free h2 c.1, ⟨first (l ++ r) none, last (l ++ r) none, s.list.size - 1⟩⟩, ?_, ?_⟩
  · simp only [delete, if_neg hguard, hadv, hun1, hun2, hhd, htl]
  · refine ⟨?_, rfl, rfl, ?_⟩
    · simp only [hsize, List.length_append, List.length_cons, Nat.cast_add, Nat.cast_one]
      omega
    · have hseg2 : Seg h2 none (l ++ r) none := by rw [seg_append]; exact ⟨hl2, hr2⟩
      refine seg_congr _ _ _ _ _ hseg2 fun a ha => free_other _ _ _ fun he => ?_
      rw [List.map_append, List.mem_append] at ha
      rcases ha with ha | ha
      · exact hcl (he ▸ ha)
      · exact hcr (he ▸ ha)

/-! ## `find` and backward reading on a represented list -/

theorem findLoop_seg (h : Heap) (v : String) (cs : Cells) (q n : Option Nat) (i0 : Int)
    (hs : Seg h q cs n) :
    ∃ r, findLoop h v cs.length i0 (first cs n) = some r ∧
      ((r = -1 ∧ v ∉ cs.map Prod.snd) ∨
        ∃ k : Nat, r = i0 + k ∧ (cs.map Prod.snd)[k]? = some v ∧
          ∀ j, j < k → (cs.map Prod.snd)[j]? ≠ some v) := by
  induction cs generalizing q i0 with
  | nil => exact ⟨-1, rfl, Or.inl ⟨rfl, by simp⟩⟩
  | cons c cs ih =>
    obtain ⟨hc, hrest⟩ := hs
    show ∃ r, findLoop h v (cs.length + 1) i0 (some c.1) = some r ∧ _
    simp only [findLoop, deref, hc]
    by_cases hv : c.2 = v
    · refine ⟨i0, by simp [hv], Or.inr ⟨0, by simp, by simp [hv], ?_⟩⟩
      intro j hj; omega
    · obtain ⟨r, hfind, hres⟩ := ih _ (i0 + 1) hrest
      refine ⟨r, by simp [hv, hfind], ?_⟩
      rcases hres with ⟨hr, hnot⟩ | ⟨k, hr, hk, hmin⟩
      · exact Or.inl ⟨hr, by simp only [List.map_cons, List.mem_cons, not_or]
                             exact ⟨fun he => hv he.symm, hnot⟩⟩
      · refine Or.inr ⟨k + 1, by rw [hr]; push_cast; ring, by simpa using hk, ?_⟩
        intro j hj
        cases j with
        | zero => simpa using hv
        | succ j => simpa using hmin j (by omega)

theorem readBack_seg (h : Heap) (cs : Cells) (q n : Option Nat) (hs : Seg h q cs n) :
    readBack h cs.length (last cs q) = some (cs.map Prod.snd).reverse := by
  induction cs using List.reverseRecOn generalizing n with
  | nil => rfl
  | append_singleton init c ih =>
    rw [seg_append] at hs
    obtain ⟨hinit, hc, -⟩ := hs
    have hlast : last (init ++ [c]) q = some c.1 := by rw [last_append]; rfl
    rw [hlast, List.length_append]
    show readBack h (init.length + 1) (some c.1) = _
    simp only [readBack, deref, hc, ih _ hinit]
    simp

theorem printBack_repr (s : State) (cs : Cells) (hr : Repr s cs) :
    printBack s = some (cs.map Prod.snd).reverse := by
  unfold printBack
  rw [hr.size_eq, hr.tail_eq]
  simpa using readBack_seg s.heap cs none none hr.seg

theorem mainInserted3_eq : mainInserted3 = some mainThree := by
  simp [mainInserted3, andThen, insert, init, CAPACITY, seek, deref, store, linkPrev, linkNext,
    setPrev, setNext, Option.bind]
  unfold mainThree
  congr 1
  funext a
  split_ifs with h1 h2 h3
  · subst h1; rfl
  · subst h2; rfl
  · subst h3; rfl
  · simp only [store, if_neg h1, if_neg h2, if_neg h3]

theorem mainInserted_eq : mainInserted = some mainState := by
  simp [mainInserted, mainInserted3, andThen, insert, init, CAPACITY, seek, deref, store,
    linkPrev, linkNext, setPrev, setNext, Option.bind]
  unfold mainState
  congr 1
  funext a
  split_ifs with h1 h2 h3 h4
  · subst h1; rfl
  · subst h2; rfl
  · subst h3; rfl
  · subst h4; rfl
  · simp only [store, if_neg h1, if_neg h2, if_neg h3, if_neg h4]

/-! ## The claims about `d_list.c` -/

theorem repr_of_wellFormed_print (s : State) (xs : List String) (hwf : WellFormed s)
    (hxs : print s = some xs) : ∃ cs, Repr s cs ∧ cs.map Prod.snd = xs := by
  obtain ⟨cs, hr⟩ := wellFormed_repr s hwf
  refine ⟨cs, hr, ?_⟩
  rw [print_repr s cs hr] at hxs
  exact Option.some.inj hxs

theorem mainThree_repr : Repr mainThree threeCells := ⟨rfl, rfl, rfl, rfl, rfl, rfl, trivial⟩

theorem mainState_repr : Repr mainState mainCells := ⟨rfl, rfl, rfl, rfl, rfl, rfl, rfl, trivial⟩

/-- C1: on a well-formed list holding the values `xs` with `size < CAPACITY`, `insert`
at an index `0 ≤ index ≤ size` (with `temp` the fresh node `malloc` returns) returns
true, the size grows by one and the values read from `head` are
`xs[0..index) ++ [v] ++ xs[index..)`. -/
theorem insert_places_value (s : State) (xs : List String) (temp : Nat) (v : String)
    (index : Int) (hwf : WellFormed s) (hxs : print s = some xs)
    (hfresh : s.heap temp = none) (hcap : s.list.size < CAPACITY)
    (h0 : 0 ≤ index) (hle : index ≤ s.list.size) :
    ∃ s1, insert s temp v index = some (s1, true) ∧
      (xs.length : Int) = s.list.size ∧ s1.list.size = s.list.size + 1 ∧
      print s1 = some (xs.take index.toNat ++ [v] ++ xs.drop index.toNat) := by
  obtain ⟨cs, hr, rfl⟩ := repr_of_wellFormed_print s xs hwf hxs
  have hsize := hr.size_eq
  have hlen : (cs.take index.toNat).length = index.toNat := by
    rw [List.length_take]; omega
  have hidx : (((cs.take index.toNat).length : Nat) : Int) = index := by rw [hlen]; omega
  have hr1 : Repr s (cs.take index.toNat ++ cs.drop index.toNat) := by
    rw [List.take_append_drop]; exact hr
  obtain ⟨s1, hins, hrepr⟩ := insert_split s _ _ temp v hr1 hfresh
    (by rw [List.take_append_drop, ← hsize]; exact hcap)
  rw [hidx] at hins
  refine ⟨s1, hins, by simp [hsize], ?_, ?_⟩
  · rw [hrepr.size_eq, hsize]
    simp only [List.length_append, List.length_cons, List.length_take, List.length_drop]
    omega
  · rw [print_repr s1 _ hrepr]
    simp

/-- Witness for C1: the fourth insert of `main`, `"test3"` at index 1, and the list
`main` prints after its four valid inserts. -/
theorem insert_places_value_witness :
    mainInserted3 = some mainThree ∧
    WellFormed mainThree ∧ print mainThree = some ["test1", "test", "test2"] ∧
    (∃ s1, insert mainThree 4 "test3" 1 = some (s1, true) ∧
      ((["test1", "test", "test2"] : List String).length : Int) = mainThree.list.size ∧
      s1.list.size = mainThree.list.size + 1 ∧
      print s1 = some ((["test1", "test", "test2"] : List String).take (1 : Int).toNat
        ++ ["test3"] ++ (["test1", "test", "test2"] : List String).drop (1 : Int).toNat)) ∧
    mainInserted.bind print = some ["test1", "test3", "test", "test2"] :=
  ⟨mainInserted3_eq, repr_wellFormed _ _ mainThree_repr, by decide,
    insert_places_value mainThree _ 4 "test3" 1 (repr_wellFormed _ _ mainThree_repr)
      (by decide) rfl (by decide) (by decide) (by decide),
    by decide⟩

/-- C2: on a well-formed list holding the values `xs`, `delete` at an index
`0 ≤ index < size` returns true, the size shrinks by one and the values read from
`head` are `xs[0..index) ++ xs[index+1..)`. -/
theorem delete_removes_element (s : State) (xs : List String) (index : Int)
    (hwf : WellFormed s) (hxs : print s = some xs)
    (h0 : 0 ≤ index) (hlt : index < s.list.size) :
    ∃ s1, delete s index = some (s1, true) ∧
      (xs.length : Int) = s.list.size ∧ s1.list.size = s.list.size - 1 ∧
      print s1 = some (xs.take index.toNat ++ xs.drop (index.toNat + 1)) := by
  obtain ⟨cs, hr, rfl⟩ := repr_of_wellFormed_print s xs hwf hxs
  have hsize := hr.size_eq
  have hi : index.toNat < cs.length := by omega
  have hlen : (cs.take index.toNat).length = index.toNat := by
    rw [List.length_take]; omega
  have hidx : (((cs.take index.toNat).length : Nat) : Int) = index := by rw [hlen]; omega
  have hsplit : cs = cs.take index.toNat ++ cs[index.toNat] :: cs.drop (index.toNat + 1) := by
    rw [← List.drop_eq_getElem_cons hi, List.take_append_drop]
  have hr1 : Repr s (cs.take index.toNat ++ cs[index.toNat] :: cs.drop (index.toNat + 1)) := by
    rw [← hsplit]; exact hr
  obtain ⟨s1, hdel, hrepr⟩ := delete_split s _ _ _ hr1
  rw [hidx] at hdel
  refine ⟨s1, hdel, by simp [hsize], ?_, ?_⟩
  · rw [hrepr.size_eq, hsize]
    simp only [List.length_append, List.length_take, List.length_drop]
    omega
  · rw [print_repr s1 _ hrepr]
    simp

/-- Witness for C2: `delete(list, 1)` on the list of `main`, and the lists `main`
prints after its deletes in the middle, at the back and at the front. -/
theorem delete_removes_element_witness :
    mainInserted = some mainState ∧
    WellFormed mainState ∧ print mainState = some ["test1", "test3", "test", "test2"] ∧
    (∃ s1, delete mainState 1 = some (s1, true) ∧
      ((["test1", "test3", "test", "test2"] : List String).length : Int)
        = mainState.list.size ∧
      s1.list.size = mainState.list.size - 1 ∧
      print s1 = some ((["test1", "test3", "test", "test2"] : List String).take (1 : Int).toNat
        ++ (["test1", "test3", "test", "test2"] : List String).drop ((1 : Int).toNat + 1))) ∧
    mainDeleted1.bind print = some ["test1", "test", "test2"] ∧
    mainDeleted2.bind print = some ["test1", "test"] ∧
    mainDeleted3.bind print = some ["test"] :=
  ⟨mainInserted_eq, repr_wellFormed _ _ mainState_repr, by decide,
    delete_removes_element mainState _ 1 (repr_wellFormed _ _ mainState_repr)
      (by decide) (by decide) (by decide),
    by decide, by decide, by decide⟩

/-- C3: on a well-formed list holding the values `xs`, `find` returns the smallest
index whose element equals `v`, returns -1 exactly when no element equals `v`, and
hands back the state it was given. -/
theorem find_smallest_index (s : State) (xs : List String) (v : String)
    (hwf : WellFormed s) (hxs : print s = some xs) :
    ∃ r, find s v = some (s, r) ∧ (r = -1 ↔ v ∉ xs) ∧
      (v ∈ xs → ∃ k : Nat, r = k ∧ xs[k]? = some v ∧ ∀ j, j < k → xs[j]? ≠ some v) := by
  obtain ⟨cs, hr, rfl⟩ := repr_of_wellFormed_print s xs hwf hxs
  obtain ⟨r, hfind, hres⟩ := findLoop_seg s.heap v cs none none 0 hr.seg
  refine ⟨r, ?_, ?_, ?_⟩
  · unfold find
    rw [hr.size_eq, hr.head_eq, Int.toNat_ofNat, hfind]
    rfl
  · rcases hres with ⟨h1, h2⟩ | ⟨k, hk, hget, -⟩
    · exact ⟨fun _ => h2, fun _ => h1⟩
    · constructor
      · intro h1; omega
      · intro hnot; exact absurd (List.getElem?_mem hget) hnot
  · intro hmem
    rcases hres with ⟨-, h2⟩ | ⟨k, hk, hget, hmin⟩
    · exact absurd hmem h2
    · exact ⟨k, by omega, hget, hmin⟩

/-- Witness for C3: on the list of `main`, `find "test"` is 2 and `find "test4"` is -1. -/
theorem find_smallest_index_witness :
    mainInserted = some mainState ∧
    WellFormed mainState ∧ print mainState = some ["test1", "test3", "test", "test2"] ∧
    (∃ r, find mainState "test" = some (mainState, r) ∧
      (r = -1 ↔ "test" ∉ (["test1", "test3", "test", "test2"] : List String)) ∧
      ("test" ∈ (["test1", "test3", "test", "test2"] : List String) →
        ∃ k : Nat, r = k ∧ (["test1", "test3", "test", "test2"] : List String)[k]? = some "test" ∧
          ∀ j, j < k → (["test1", "test3", "test", "test2"] : List String)[j]? ≠ some "test")) ∧
    (mainInserted.bind fun s => (find s "test").map Prod.snd) = some 2 ∧
    (mainInserted.bind fun s => (find s "test4").map Prod.snd) = some (-1) :=
  ⟨mainInserted_eq, repr_wellFormed _ _ mainState_repr, by decide,
    find_smallest_index mainState _ "test" (repr_wellFormed _ _ mainState_repr) (by decide),
    by decide, by decide⟩

/-- C4: `insert` returns false for every index above `size` (as for the invalid insert
of `main`, index 9 on a list of size 4), but a negative index passes the guard
`index > list->size`: on the list of `main`, `insert(list, "test4", -1)` returns true,
`size` becomes 5 while `head` and `tail` are unchanged, and reading the list from
`head` then runs off the end. -/
theorem insert_negative_index_accepted :
    (∀ (s : State) (temp : Nat) (v : String) (index : Int),
      index > s.list.size → (insert s temp v index).map Prod.snd = some false) ∧
    (insert mainState 5 "test4" 9).map Prod.snd = some false ∧
    (insert mainState 5 "test4" (-1)).map (fun r => (r.2, r.1.list))
      = some (true, ⟨some 2, some 3, 5⟩) ∧
    ((insert mainState 5 "test4" (-1)).bind fun r => print r.1) = none := by
  refine ⟨?_, by decide, by decide, by decide⟩
  intro s temp v index hgt
  simp [insert, hgt]

/-- C10: valid operations keep the list well-formed. From a well-formed list, every
`insert` with `0 ≤ index ≤ size < CAPACITY` and every `delete` with `0 ≤ index < size`
returns true in a well-formed list; and in a well-formed list following `prev` from
`tail` reads the values in reverse order. -/
theorem wellFormed_preserved (s : State) (hwf : WellFormed s) :
    (∀ (temp : Nat) (v : String) (index : Int), s.heap temp = none →
      0 ≤ index → index ≤ s.list.size → s.list.size < CAPACITY →
      ∃ s1, insert s temp v index = some (s1, true) ∧ WellFormed s1) ∧
    (∀ index : Int, 0 ≤ index → index < s.list.size →
      ∃ s1, delete s index = some (s1, true) ∧ WellFormed s1) ∧
    (∀ xs, print s = some xs → printBack s = some xs.reverse) := by
  obtain ⟨cs, hr⟩ := wellFormed_repr s hwf
  have hsize := hr.size_eq
  refine ⟨?_, ?_, ?_⟩
  · intro temp v index hfresh h0 hle hcap
    have hlen : (cs.take index.toNat).length = index.toNat := by
      rw [List.length_take]; omega
    have hidx : (((cs.take index.toNat).length : Nat) : Int) = index := by rw [hlen]; omega
    have hr1 : Repr s (cs.take index.toNat ++ cs.drop index.toNat) := by
      rw [List.take_append_drop]; exact hr
    obtain ⟨s1, hins, hrepr⟩ := insert_split s _ _ temp v hr1 hfresh
      (by rw [List.take_append_drop, ← hsize]; exact hcap)
    rw [hidx] at hins
    exact ⟨s1, hins, repr_wellFormed s1 _ hrepr⟩
  · intro index h0 hlt
    have hi : index.toNat < cs.length := by omega
    have hlen : (cs.take index.toNat).length = index.toNat := by
      rw [List.length_take]; omega
    have hidx : (((cs.take index.toNat).length : Nat) : Int) = index := by rw [hlen]; omega
    have hr1 : Repr s (cs.take index.toNat ++ cs[index.toNat] :: cs.drop (index.toNat + 1)) := by
      rw [← List.drop_eq_getElem_cons hi, List.take_append_drop]; exact hr
    obtain ⟨s1, hdel, hrepr⟩ := delete_split s _ _ _ hr1
    rw [hidx] at hdel
    exact ⟨s1, hdel, repr_wellFormed s1 _ hrepr⟩
  · intro xs hxs
    rw [print_repr s cs hr] at hxs
    rw [printBack_repr s cs hr, ← Option.some.inj hxs]

/-- Witness for C10: the fourth insert of `main` and a delete keep the list well-formed,
and after the four valid inserts `head` is `"test1"`, `head->next` is `"test3"`,
`tail->prev` is `"test"` and `tail` is `"test2"`. -/
theorem wellFormed_preserved_witness :
    WellFormed mainThree ∧
    (∃ s1, insert mainThree 4 "test3" 1 = some (s1, true) ∧ WellFormed s1) ∧
    (∃ s1, delete mainThree 2 = some (s1, true) ∧ WellFormed s1) ∧
    printBack mainThree = some ["test2", "test", "test1"] ∧
    mainInserted.bind comp = some ("test1", "test3", "test", "test2") :=
  ⟨repr_wellFormed _ _ mainThree_repr,
    (wellFormed_preserved mainThree (repr_wellFormed _ _ mainThree_repr)).1 4 "test3" 1
      rfl (by decide) (by decide) (by decide),
    (wellFormed_preserved mainThree (repr_wellFormed _ _ mainThree_repr)).2.1 2
      (by decide) (by decide),
    (wellFormed_preserved mainThree (repr_wellFormed _ _ mainThree_repr)).2.2
      ["test1", "test", "test2"] (by decide),
    by decide⟩

/-! ## Runs of `insert` and `delete` -/

theorem setPrev_dead (h h1 : Heap) (a b : Nat) (p : Option Nat)
    (hs : setPrev h a p = some h1) (hb : h b = none) : h1 b = none := by
  unfold setPrev at hs
  cases ha : h a with
  | none => simp [ha] at hs
  | some nd =>
    simp only [ha, Option.some.injEq] at hs
    subst hs
    have hne : b ≠ a := fun he => by rw [he, ha] at hb; cases hb
    rw [store_other _ _ _ _ hne]; exact hb

theorem setNext_dead (h h1 : Heap) (a b : Nat) (p : Option Nat)
    (hs : setNext h a p = some h1) (hb : h b = none) : h1 b = none := by
  unfold setNext at hs
  cases ha : h a with
  | none => simp [ha] at hs
  | some nd =>
    simp only [ha, Option.some.injEq] at hs
    subst hs
    have hne : b ≠ a := fun he => by rw [he, ha] at hb; cases hb
    rw [store_other _ _ _ _ hne]; exact hb

theorem linkPrev_dead (h h1 : Heap) (temp b : Nat) (p : Option Nat)
    (hs : linkPrev h temp p = some h1) (hb : h b = none) : h1 b = none := by
  cases p with
  | none => cases hs; exact hb
  | some a =>
    simp only [linkPrev] at hs
    cases hm : setPrev h temp (some a) with
    | none => simp [hm] at hs
    | some hmid =>
      simp only [hm, Option.some_bind] at hs
      exact setNext_dead _ _ _ _ _ hs (setPrev_dead _ _ _ _ _ hm hb)

theorem linkNext_dead (h h1 : Heap) (temp b : Nat) (p : Option Nat)
    (hs : linkNext h temp p = some h1) (hb : h b = none) : h1 b = none := by
  cases p with
  | none => cases hs; exact hb
  | some a =>
    simp only [linkNext] at hs
    cases hm : setNext h temp (some a) with
    | none => simp [hm] at hs
    | some hmid =>
      simp only [hm, Option.some_bind] at hs
      exact setPrev_dead _ _ _ _ _ hs (setNext_dead _ _ _ _ _ hm hb)

theorem insert_dead (s s1 : State) (temp : Nat) (v : String) (index : Int) (flag : Bool)
    (b : Nat) (hins : insert s temp v index = some (s1, flag)) (hb : b ≠ temp)
    (hdead : s.heap b = none) : s1.heap b = none := by
  unfold insert at hins
  by_cases hg : index > s.list.size ∨ s.list.size = CAPACITY
  · rw [if_pos hg] at hins
    cases hins
    exact hdead
  · rw [if_neg hg] at hins
    cases hseek : seek s.heap index.toNat none s.list.head with
    | none => simp [hseek] at hins
    | some pc =>
      obtain ⟨prev, curr⟩ := pc
      simp only [hseek] at hins
      cases hl1 : linkPrev (store s.heap temp ⟨v, none, none⟩) temp prev with
      | none => simp [hl1] at hins
      | some h1 =>
        simp only [hl1] at hins
        cases hl2 : linkNext h1 temp curr with
        | none => simp [hl2] at hins
        | some h2 =>
          simp only [hl2, Option.some.injEq, Prod.mk.injEq] at hins
          rw [← hins.1]
          refine linkNext_dead _ _ _ _ _ hl2 (linkPrev_dead _ _ _ _ _ hl1 ?_)
          rw [store_other _ _ _ _ hb]; exact hdead

theorem insert_repr (s : State) (cs : Cells) (temp : Nat) (v : String) (index : Int)
    (hr : Repr s cs) (hfresh : s.heap temp = none) (h0 : 0 ≤ index)
    (hle : index ≤ cs.length) (hcap : (cs.length : Int) < CAPACITY) :
    ∃ s1, insert s temp v index = some (s1, true) ∧
      Repr s1 (cs.take index.toNat ++ (temp, v) :: cs.drop index.toNat) := by
  have hlen : (cs.take index.toNat).length = index.toNat := by
    rw [List.length_take]; omega
  have hidx : (((cs.take index.toNat).length : Nat) : Int) = index := by rw [hlen]; omega
  have hr1 : Repr s (cs.take index.toNat ++ cs.drop index.toNat) := by
    rw [List.take_append_drop]; exact hr
  obtain ⟨s1, hins, hrepr⟩ := insert_split s _ _ temp v hr1 hfresh
    (by rw [List.take_append_drop]; exact hcap)
  rw [hidx] at hins
  exact ⟨s1, hins, hrepr⟩

theorem insertAll_repr (s : State) (cs : Cells) (calls : List InsertCall) (hr : Repr s cs)
    (hnd : (calls.map fun c => c.temp).Nodup)
    (hfresh : ∀ c, c ∈ calls → s.heap c.temp = none)
    (hpos : ∀ (k : Nat) (c : InsertCall), calls[k]? = some c →
      0 ≤ c.index ∧ c.index ≤ ((cs.length + k : Nat) : Int))
    (hcap : ((cs.length + calls.length : Nat) : Int) ≤ CAPACITY) :
    ∃ s1 cs1, insertAll s calls = some s1 ∧ Repr s1 cs1 ∧
      cs1.length = cs.length + calls.length := by
  induction calls generalizing s cs with
  | nil => exact ⟨s, cs, rfl, hr, rfl⟩
  | cons c rest ih =>
    simp only [List.map_cons, List.nodup_cons, List.mem_map, not_exists, not_and] at hnd
    obtain ⟨hpos0, hle0⟩ := hpos 0 c (by simp)
    have hcap0 : (cs.length : Int) < CAPACITY := by
      simp only [List.length_cons] at hcap; omega
    obtain ⟨s1, hins, hrepr⟩ := insert_repr s cs c.temp c.value c.index hr
      (hfresh c (List.mem_cons_self _ _)) hpos0 (by simpa using hle0) hcap0
    have hlen1 : (cs.take c.index.toNat ++ (c.temp, c.value) :: cs.drop c.index.toNat).length
        = cs.length + 1 := by
      simp only [List.length_append, List.length_cons, List.length_take, List.length_drop]
      omega
    obtain ⟨s2, cs2, hall, hrepr2, hlen2⟩ := ih s1 _ hrepr hnd.2
      (fun c1 h1 => insert_dead s s1 c.temp c.value c.index true c1.temp hins
        (fun he => hnd.1 c1 h1 he) (hfresh c1 (List.mem_cons_of_mem _ h1)))
      (fun k c1 hk => by
        have := hpos (k + 1) c1 (by simpa using hk)
        rw [hlen1]
        refine ⟨this.1, ?_⟩
        have h2 := this.2
        push_cast at h2 ⊢
        omega)
      (by rw [hlen1]; simp only [List.length_cons] at hcap; push_cast at hcap ⊢; omega)
    refine ⟨s2, cs2, ?_, hrepr2, by rw [hlen2, hlen1, List.length_cons]; omega⟩
    simp only [insertAll, hins, hall]

theorem deleteFront_repr (s : State) (cs : Cells) (hr : Repr s cs) :
    ∃ s1, deleteFront s cs.length = some s1 ∧ Repr s1 [] := by
  induction cs generalizing s with
  | nil => exact ⟨s, rfl, hr⟩
  | cons c r ih =>
    obtain ⟨s1, hdel, hrepr⟩ := delete_split s [] r c hr
    obtain ⟨s2, hrest, hnil⟩ := ih s1 hrepr
    refine ⟨s2, ?_, hnil⟩
    have hdel0 : delete s 0 = some (s1, true) := hdel
    simp only [List.length_cons, deleteFront, hdel0, hrest]

theorem repr_nil_list (s : State) (hr : Repr s []) : s.list = emptyList := by
  obtain ⟨hsize, hhead, htail, -⟩ := hr
  cases hl : s.list with
  | mk hd tl sz =>
    rw [hl] at hsize hhead htail
    simp only [List.length_nil, Nat.cast_zero, first, last] at hsize hhead htail
    simp only [emptyList, LinkedList.mk.injEq]
    exact ⟨hhead, htail, hsize⟩

theorem repr_of_emptyList (s : State) (he : s.list = emptyList) : Repr s [] := by
  refine ⟨?_, ?_, ?_, trivial⟩ <;> rw [he] <;> rfl

theorem insert_true_guard (s s1 : State) (temp : Nat) (v : String) (index : Int)
    (hins : insert s temp v index = some (s1, true)) :
    index ≤ s.list.size ∧ s.list.size ≠ CAPACITY := by
  by_cases hg : index > s.list.size ∨ s.list.size = CAPACITY
  · rw [insert, if_pos hg] at hins
    simp at hins
  · rw [not_or] at hg
    exact ⟨by omega, hg.2⟩

theorem insertAll_success_repr (s s1 : State) (cs : Cells) (calls : List InsertCall)
    (hr : Repr s cs) (hbound : (cs.length : Int) ≤ CAPACITY)
    (hnd : (calls.map fun c => c.temp).Nodup)
    (hfresh : ∀ c, c ∈ calls → s.heap c.temp = none)
    (hpos : ∀ c, c ∈ calls → 0 ≤ c.index)
    (hall : insertAll s calls = some s1) :
    ∃ cs1, Repr s1 cs1 ∧ cs1.length = cs.length + calls.length := by
  induction calls generalizing s cs with
  | nil =>
    simp only [insertAll, Option.some.injEq] at hall
    subst hall
    exact ⟨cs, hr, rfl⟩
  | cons c rest ih =>
    simp only [List.map_cons, List.nodup_cons, List.mem_map, not_exists, not_and] at hnd
    cases hins : insert s c.temp c.value c.index with
    | none => simp [insertAll, hins] at hall
    | some r =>
      obtain ⟨s2, flag⟩ := r
      cases flag with
      | false => simp [insertAll, hins] at hall
      | true =>
        simp only [insertAll, hins] at hall
        obtain ⟨hle, hne⟩ := insert_true_guard s s2 _ _ _ hins
        have hsize := hr.size_eq
        have hcap0 : (cs.length : Int) < CAPACITY := by
          rw [hsize] at hne; omega
        obtain ⟨s3, hins3, hrepr⟩ := insert_repr s cs c.temp c.value c.index hr
          (hfresh c (List.mem_cons_self _ _)) (hpos c (List.mem_cons_self _ _))
          (by rw [← hsize]; exact hle) hcap0
        rw [hins] at hins3
        simp only [Option.some.injEq, Prod.mk.injEq, and_true] at hins3
        subst hins3
        have hlen1 : (cs.take c.index.toNat ++ (c.temp, c.value) :: cs.drop c.index.toNat).length
            = cs.length + 1 := by
          simp only [List.length_append, List.length_cons, List.length_take, List.length_drop]
          omega
        obtain ⟨cs2, hrepr2, hlen2⟩ := ih s2 _ hrepr
          (by rw [hlen1]; push_cast; omega) hnd.2
          (fun c1 h1 => insert_dead s s2 c.temp c.value c.index true c1.temp hins
            (fun he => hnd.1 c1 h1 he) (hfresh c1 (List.mem_cons_of_mem _ h1)))
          (fun c1 h1 => hpos c1 (List.mem_cons_of_mem _ h1)) hall
        exact ⟨cs2, hrepr2, by rw [hlen2, hlen1, List.length_cons]; omega⟩

theorem mainOne_repr : Repr mainOne [(1, "test")] := ⟨rfl, rfl, rfl, rfl, trivial⟩

theorem mainCalls_positions (k : Nat) (c : InsertCall) (hk : mainCalls[k]? = some c) :
    0 ≤ c.index ∧ c.index ≤ k := by
  rcases k with _ | _ | _ | _ | k <;>
    simp only [mainCalls, List.getElem?_cons_zero, List.getElem?_cons_succ,
      List.getElem?_nil, Option.some.injEq] at hk
  all_goals first
    | (subst hk; constructor <;> simp)
    | cases hk

/-- C11: delete to empty. On every well-formed list of size 1, `delete(list, 0)`
returns true and leaves the list record in the initial empty state (`head` and `tail`
`NULL`, `size` 0). Consequently, from an empty list, `n ≤ CAPACITY` inserts at valid
positions (the `k`-th, counted from 0, at an index between 0 and `k`, into fresh
nodes) all return true, and `n` deletes at index 0 after them all return true and end
in the initial empty state; and whenever `n` inserts at non-negative indices into fresh
nodes have all returned true, the `n` deletes at index 0 all return true and end in the
initial empty state. -/
theorem delete_to_empty :
    (∀ s : State, WellFormed s → s.list.size = 1 →
      ∃ s1, delete s 0 = some (s1, true) ∧ s1.list = emptyList) ∧
    (∀ (s0 : State) (calls : List InsertCall), s0.list = emptyList →
      (calls.map fun c => c.temp).Nodup →
      (∀ c, c ∈ calls → s0.heap c.temp = none) →
      (∀ (k : Nat) (c : InsertCall), calls[k]? = some c → 0 ≤ c.index ∧ c.index ≤ k) →
      (calls.length : Int) ≤ CAPACITY →
      ∃ s1 s2, insertAll s0 calls = some s1 ∧ s1.list.size = calls.length ∧
        deleteFront s1 calls.length = some s2 ∧ s2.list = emptyList) ∧
    (∀ (s0 s1 : State) (calls : List InsertCall), s0.list = emptyList →
      (calls.map fun c => c.temp).Nodup →
      (∀ c, c ∈ calls → s0.heap c.temp = none) →
      (∀ c, c ∈ calls → 0 ≤ c.index) →
      insertAll s0 calls = some s1 →
      ∃ s2, deleteFront s1 calls.length = some s2 ∧ s2.list = emptyList) := by
  refine ⟨?_, ?_, ?_⟩
  · intro s hwf hsize
    obtain ⟨cs, hr⟩ := wellFormed_repr s hwf
    have hlen : cs.length = 1 := by
      have := hr.size_eq
      omega
    obtain ⟨c, rfl⟩ := List.length_eq_one.1 hlen
    obtain ⟨s1, hdel, hrepr⟩ := delete_split s [] [] c hr
    exact ⟨s1, hdel, repr_nil_list s1 hrepr⟩
  · intro s0 calls hempty hnd hfresh hpos hcap
    obtain ⟨s1, cs1, hall, hrepr1, hlen1⟩ := insertAll_repr s0 [] calls
      (repr_of_emptyList s0 hempty) hnd hfresh
      (fun k c hk => by simpa using hpos k c hk) (by simpa using hcap)
    simp only [List.length_nil, Nat.zero_add] at hlen1
    obtain ⟨s2, hdel, hnil⟩ := deleteFront_repr s1 cs1 hrepr1
    rw [hlen1] at hdel
    exact ⟨s1, s2, hall, by rw [hrepr1.size_eq, hlen1], hdel, repr_nil_list s2 hnil⟩
  · intro s0 s1 calls hempty hnd hfresh hpos hall
    obtain ⟨cs1, hrepr1, hlen1⟩ := insertAll_success_repr s0 s1 [] calls
      (repr_of_emptyList s0 hempty) (by simp [CAPACITY]) hnd hfresh hpos hall
    simp only [List.length_nil, Nat.zero_add] at hlen1
    obtain ⟨s2, hdel, hnil⟩ := deleteFront_repr s1 cs1 hrepr1
    rw [hlen1] at hdel
    exact ⟨s2, hdel, repr_nil_list s2 hnil⟩

/-- Witness for C11: the last delete of `main` (line 149) empties its one-element list,
and the four valid inserts of `main` followed by four deletes at index 0 end in the
initial empty state. -/
theorem delete_to_empty_witness :
    WellFormed mainOne ∧ mainOne.list.size = 1 ∧
    (∃ s1, delete mainOne 0 = some (s1, true) ∧ s1.list = emptyList) ∧
    init.list = emptyList ∧ (mainCalls.map fun c => c.temp).Nodup ∧
    (∃ s1 s2, insertAll init mainCalls = some s1 ∧ s1.list.size = mainCalls.length ∧
      deleteFront s1 mainCalls.length = some s2 ∧ s2.list = emptyList) ∧
    mainDeleted3.bind print = some ["test"] ∧
    mainDeleted3.map (fun s => s.list) = some mainOne.list ∧
    mainDeleted4.map (fun s => s.list) = some emptyList ∧
    mainDeleted4.bind print = some [] :=
  ⟨repr_wellFormed _ _ mainOne_repr, rfl,
    delete_to_empty.1 mainOne (repr_wellFormed _ _ mainOne_repr) rfl,
    rfl, by decide,
    delete_to_empty.2.1 init mainCalls rfl (by decide) (fun _ _ => rfl)
      mainCalls_positions (by decide),
    by decide, by decide, by decide, by decide⟩

end DList

namespace Clox

/-! ## The claims about `clox/object.h` -/

theorem isObjType_true_iff (h : Heap) (v : Value) (t : ObjType) :
    isObjType h v t = some true ↔
      v.type = ValueType.VAL_OBJ ∧ ∃ o, h v.as.obj = some o ∧ o.obj.type = t := by
  unfold isObjType IS_OBJ
  by_cases hv : v.type = ValueType.VAL_OBJ
  · cases ho : h v.as.obj with
    | none => simp [hv]
    | some o => simp [hv]
  · simp [hv]

/-- C5: `isObjType` is a two-level check. It returns true exactly when the Value carries
the object-reference tag and the Object it references has the requested discriminant; it
returns false for every Value without that tag, and for a live reference it returns
whether the discriminants agree. `IS_STRING` is the instance at `OBJ_STRING`. -/
theorem isObjType_two_level (h : Heap) (v : Value) (t : ObjType) :
    (isObjType h v t = some true ↔
      v.type = ValueType.VAL_OBJ ∧ ∃ o, h v.as.obj = some o ∧ o.obj.type = t) ∧
    (v.type ≠ ValueType.VAL_OBJ → isObjType h v t = some false) ∧
    (∀ o, v.type = ValueType.VAL_OBJ → h v.as.obj = some o →
      isObjType h v t = some (decide (o.obj.type = t))) ∧
    (IS_STRING h v = some true ↔
      v.type = ValueType.VAL_OBJ ∧
        ∃ o, h v.as.obj = some o ∧ o.obj.type = ObjType.OBJ_STRING) := by
  refine ⟨isObjType_true_iff h v t, ?_, ?_, isObjType_true_iff h v _⟩
  · intro hv
    simp [isObjType, IS_OBJ, hv]
  · intro o hv ho
    simp [isObjType, IS_OBJ, hv, ho]

/-- C6: for a Value with the object-reference tag whose reference is a live object,
`isObjType` is true for exactly one `ObjType` and false for every other one. -/
theorem isObjType_exactly_one (h : Heap) (v : Value) (o : ObjString)
    (htag : v.type = ValueType.VAL_OBJ) (hlive : h v.as.obj = some o) :
    ∃ t, isObjType h v t = some true ∧
      (∀ t1, isObjType h v t1 = some true → t1 = t) ∧
      (∀ t1, t1 ≠ t → isObjType h v t1 = some false) := by
  have hval : ∀ t1, isObjType h v t1 = some (decide (o.obj.type = t1)) := by
    intro t1
    unfold isObjType
    rw [if_pos (by simp [IS_OBJ, htag]), hlive, Option.map_some']
  refine ⟨o.obj.type, ?_, ?_, ?_⟩
  · exact (hval _).trans (congrArg some (decide_eq_true rfl))
  · intro t1 h1
    exact (of_decide_eq_true (Option.some.inj ((hval t1).symm.trans h1))).symm
  · intro t1 hne
    exact (hval t1).trans (congrArg some (decide_eq_false fun he => hne he.symm))

/-- Witness for C6: the Value referring to the string object `"lox"`. -/
theorem isObjType_exactly_one_witness :
    loxValue.type = ValueType.VAL_OBJ ∧
    loxHeap loxValue.as.obj = some ⟨⟨ObjType.OBJ_STRING, none⟩, 3, loxBytes ++ [0], 0⟩ ∧
    ∃ t, isObjType loxHeap loxValue t = some true ∧
      (∀ t1, isObjType loxHeap loxValue t1 = some true → t1 = t) ∧
      (∀ t1, t1 ≠ t → isObjType loxHeap loxValue t1 = some false) :=
  ⟨rfl, rfl, isObjType_exactly_one loxHeap loxValue _ rfl rfl⟩

/-- C7, as stated, fails: on `NIL_VAL`, for which `IS_STRING` is false, `AS_STRING`
returns the object field of the union (the address 0) where the checked accessor of the
spec reports `TypeMismatch`. -/
theorem AS_STRING_unchecked_on_nil :
    IS_STRING emptyHeap nilValue = some false ∧
    AS_STRING nilValue = 0 ∧
    asStringChecked emptyHeap nilValue = Except.error AccessError.TypeMismatch ∧
    (Except.ok (AS_STRING nilValue) : Except AccessError Nat)
      ≠ asStringChecked emptyHeap nilValue := by
  have hchk : asStringChecked emptyHeap nilValue = Except.error AccessError.TypeMismatch := rfl
  refine ⟨by decide, rfl, hchk, ?_⟩
  rw [hchk]
  intro he
  cases he

/-- C7, amended: the accessors test nothing. For every Value, `AS_STRING` is the object
field of the union and `AS_CSTRING` is the buffer of whatever object lives at that
address; when `IS_STRING` is true these are the reference of a live string object and
its bytes, the results the checked accessors of the spec give. -/
theorem accessors_unchecked (h : Heap) (v : Value) :
    AS_STRING v = v.as.obj ∧
    AS_CSTRING h v = (h v.as.obj).map (fun o => o.chars) ∧
    (IS_STRING h v = some true →
      ∃ o, h (AS_STRING v) = some o ∧ o.obj.type = ObjType.OBJ_STRING ∧
        AS_CSTRING h v = some o.chars ∧
        asStringChecked h v = Except.ok (AS_STRING v) ∧
        asCStringChecked h v = Except.ok o.chars) := by
  refine ⟨rfl, rfl, fun hs => ?_⟩
  obtain ⟨-, o, ho, hty⟩ := (isObjType_true_iff h v ObjType.OBJ_STRING).1 hs
  refine ⟨o, ho, hty, ?_, ?_, ?_⟩
  · simp [AS_CSTRING, AS_STRING, ho]
  · simp [asStringChecked, hs, AS_STRING]
  · simp [asCStringChecked, hs, ho]

/-- Witness for C7 amended: the Value referring to the string object `"lox"`. -/
theorem accessors_unchecked_witness :
    IS_STRING loxHeap loxValue = some true ∧
    ∃ o, loxHeap (AS_STRING loxValue) = some o ∧ o.obj.type = ObjType.OBJ_STRING ∧
      AS_CSTRING loxHeap loxValue = some o.chars ∧
      asStringChecked loxHeap loxValue = Except.ok (AS_STRING loxValue) ∧
      asCStringChecked loxHeap loxValue = Except.ok o.chars :=
  ⟨by decide, (accessors_unchecked loxHeap loxValue).2.2 (by decide)⟩

/-! ## The Interning Registry -/

theorem lookup_cons (e : Entry) (es : List Entry) (c : List Nat) (h : Nat) :
    lookup (e :: es) c h = if e.hash = h ∧ e.chars = c then some e.ref else lookup es c h := by
  unfold lookup
  by_cases hm : e.hash = h ∧ e.chars = c
  · simp [List.find?_cons, hm]
  · rw [if_neg hm, List.find?_cons]
    simp [hm]

theorem lookup_some (es : List Entry) (c : List Nat) (h r : Nat)
    (hl : lookup es c h = some r) :
    ∃ e, e ∈ es ∧ e.hash = h ∧ e.chars = c ∧ e.ref = r := by
  induction es with
  | nil => simp [lookup] at hl
  | cons e es ih =>
    rw [lookup_cons] at hl
    by_cases hm : e.hash = h ∧ e.chars = c
    · rw [if_pos hm] at hl
      exact ⟨e, List.mem_cons_self _ _, hm.1, hm.2, Option.some.inj hl⟩
    · rw [if_neg hm] at hl
      obtain ⟨e1, h1, h2⟩ := ih hl
      exact ⟨e1, List.mem_cons_of_mem _ h1, h2⟩

theorem hashString_congr (k1 k2 : List Nat) (n1 n2 : Nat) (hk : k1.take n1 = k2.take n2) :
    hashString k1 n1 = hashString k2 n2 := by
  unfold hashString
  rw [hk]

theorem foldl_hashStep_lt (l : List Nat) (b : Nat) (hb : b < 2 ^ 32) :
    l.foldl hashStep b < 2 ^ 32 := by
  induction l generalizing b with
  | nil => exact hb
  | cons x l ih => exact ih _ (Nat.mod_lt _ (by norm_num))

theorem hashString_lt (key : List Nat) (n : Nat) : hashString key n < 2 ^ 32 :=
  foldl_hashStep_lt _ _ (by norm_num [FNV_OFFSET_BASIS])

theorem construct_found (vm : VM) (c : Call) (r : Nat)
    (hl : lookup vm.strings c.content (hashString c.chars c.length) = some r) :
    construct vm c = (r, vm) := by
  obtain ⟨kind, chars, length⟩ := c
  simp only [Call.content] at hl
  cases kind <;> simp [construct, takeString, copyString, hl]

theorem construct_alloc (vm : VM) (c : Call) (hv : c.Valid)
    (hl : lookup vm.strings c.content (hashString c.chars c.length) = none) :
    ∃ buf, construct vm c = allocateString vm buf c.length (hashString buf c.length) ∧
      buf.take c.length = c.content := by
  obtain ⟨kind, chars, length⟩ := c
  simp only [Call.content, Call.Valid] at hl hv ⊢
  cases kind
  · exact ⟨chars, by simp [construct, takeString, hl], rfl⟩
  · have htake : (chars.take length ++ [0]).take length = chars.take length := by
      apply List.take_left'
      rw [List.length_take]; omega
    refine ⟨chars.take length ++ [0], ?_, htake⟩
    rw [hashString_congr _ chars length length htake]
    simp [construct, copyString, hl]

theorem allocate_interned (vm : VM) (hinv : Interned vm) (buf : List Nat) (length : Nat)
    (hnew : lookup vm.strings (buf.take length) (hashString buf length) = none) :
    Interned (allocateString vm buf length (hashString buf length)).2 := by
  constructor
  · intro a o ha
    simp only [allocateString] at ha ⊢
    by_cases hfresh : a = vm.nextFree
    · rw [if_pos hfresh] at ha
      cases ha
      refine ⟨by omega, rfl, ?_⟩
      rw [lookup_cons, if_pos ⟨rfl, rfl⟩, hfresh]
    · rw [if_neg hfresh] at ha
      obtain ⟨hlt, hhash, hreg⟩ := hinv.registered a o ha
      refine ⟨by omega, hhash, ?_⟩
      rw [lookup_cons, if_neg]
      · exact hreg
      · rintro ⟨h1, h2⟩
        simp only at h1 h2
        rw [h1, h2, hreg] at hnew
        cases hnew
  · intro e he
    simp only [allocateString] at he ⊢
    rcases List.mem_cons.1 he with rfl | he
    · exact ⟨_, if_pos rfl, rfl, rfl⟩
    · obtain ⟨o, ho, hc, hh⟩ := hinv.live e he
      have hlt := (hinv.registered _ o ho).1
      refine ⟨o, ?_, hc, hh⟩
      rw [if_neg (by omega)]
      exact ho

theorem construct_interned (vm : VM) (c : Call) (hinv : Interned vm) (hv : c.Valid) :
    Interned (construct vm c).2 := by
  cases hl : lookup vm.strings c.content (hashString c.chars c.length) with
  | some r => rw [construct_found vm c r hl]; exact hinv
  | none =>
    obtain ⟨buf, hc, hbuf⟩ := construct_alloc vm c hv hl
    rw [hc]
    apply allocate_interned vm hinv
    rw [hbuf, hashString_congr buf c.chars c.length c.length hbuf]
    exact hl

theorem run_interned (vm : VM) (calls : List Call) (hinv : Interned vm)
    (hvalid : ∀ c, c ∈ calls → c.Valid) : Interned (run vm calls).2 := by
  induction calls generalizing vm with
  | nil => exact hinv
  | cons c cs ih =>
    exact ih _ (construct_interned vm c hinv (hvalid c (List.mem_cons_self _ _)))
      fun c1 h1 => hvalid c1 (List.mem_cons_of_mem _ h1)

theorem construct_lookup (vm : VM) (c : Call) (hv : c.Valid) :
    lookup (construct vm c).2.strings c.content (hashString c.chars c.length)
      = some (construct vm c).1 := by
  cases hl : lookup vm.strings c.content (hashString c.chars c.length) with
  | some r => rw [construct_found vm c r hl]; exact hl
  | none =>
    obtain ⟨buf, hc, hbuf⟩ := construct_alloc vm c hv hl
    rw [hc]
    simp only [allocateString]
    rw [lookup_cons, if_pos ⟨hashString_congr _ _ _ _ hbuf, hbuf⟩]

theorem construct_stable (vm : VM) (c : Call) (hv : c.Valid) (c0 : List Nat) (h0 r : Nat)
    (hl0 : lookup vm.strings c0 h0 = some r) :
    lookup (construct vm c).2.strings c0 h0 = some r := by
  cases hl : lookup vm.strings c.content (hashString c.chars c.length) with
  | some r1 => rw [construct_found vm c r1 hl]; exact hl0
  | none =>
    obtain ⟨buf, hc, hbuf⟩ := construct_alloc vm c hv hl
    rw [hc]
    simp only [allocateString]
    rw [lookup_cons, if_neg]
    · exact hl0
    · rintro ⟨h1, h2⟩
      simp only at h1 h2
      rw [hashString_congr buf c.chars c.length c.length hbuf] at h1
      rw [hbuf] at h2
      rw [h1, h2, hl0] at hl
      cases hl

theorem run_found (vm : VM) (calls : List Call) (hvalid : ∀ c, c ∈ calls → c.Valid)
    (r j : Nat) (cj : Call) (hj : calls[j]? = some cj)
    (hl : lookup vm.strings cj.content (hashString cj.chars cj.length) = some r) :
    (run vm calls).1[j]? = some r := by
  induction calls generalizing vm j with
  | nil => simp at hj
  | cons c cs ih =>
    have hvc := hvalid c (List.mem_cons_self _ _)
    cases j with
    | zero =>
      simp only [List.getElem?_cons_zero, Option.some.injEq] at hj
      subst hj
      simp only [run, List.getElem?_cons_zero, construct_found vm c r hl]
    | succ j =>
      simp only [List.getElem?_cons_succ] at hj
      simp only [run, List.getElem?_cons_succ]
      exact ih _ (fun c1 h1 => hvalid c1 (List.mem_cons_of_mem _ h1)) j hj
        (construct_stable vm c hvc _ _ r hl)

theorem run_same_le (vm : VM) (calls : List Call) (hvalid : ∀ c, c ∈ calls → c.Valid)
    (i j : Nat) (hij : i ≤ j) (ci cj : Call) (hi : calls[i]? = some ci)
    (hj : calls[j]? = some cj) (hsame : ci.content = cj.content) :
    ∃ r, (run vm calls).1[i]? = some r ∧ (run vm calls).1[j]? = some r := by
  induction calls generalizing vm i j with
  | nil => simp at hi
  | cons c cs ih =>
    have hvc := hvalid c (List.mem_cons_self _ _)
    have hvs : ∀ c1, c1 ∈ cs → c1.Valid := fun c1 h1 => hvalid c1 (List.mem_cons_of_mem _ h1)
    cases i with
    | zero =>
      simp only [List.getElem?_cons_zero, Option.some.injEq] at hi
      subst hi
      refine ⟨(construct vm c).1, by simp [run], ?_⟩
      cases j with
      | zero => simp [run]
      | succ j =>
        simp only [List.getElem?_cons_succ] at hj
        simp only [run, List.getElem?_cons_succ]
        apply run_found _ cs hvs _ j cj hj
        have hlk := construct_lookup vm c hvc
        rw [hsame, hashString_congr c.chars cj.chars c.length cj.length hsame] at hlk
        exact hlk
    | succ i =>
      cases j with
      | zero => omega
      | succ j =>
        simp only [List.getElem?_cons_succ] at hi hj
        simp only [run, List.getElem?_cons_succ]
        exact ih _ hvs i j (by omega) hi hj

theorem interned_initVM : Interned initVM :=
  ⟨fun _ _ h => (by cases h), fun _ h => (by cases h)⟩

theorem fooBarFoo_valid : ∀ c, c ∈ fooBarFoo → c.Valid := by
  intro c hc
  simp only [fooBarFoo, List.mem_cons, List.mem_singleton, List.not_mem_nil, or_false] at hc
  rcases hc with rfl | rfl | rfl <;> simp [Call.Valid, fooBytes, barBytes]

/-! ## The claims about string construction -/

/-- C8: canonicalization. In any sequence of `copyString` / `takeString` calls from a
state that satisfies the registry invariant, two calls whose byte sequences have the
same content return the same object reference, whichever constructors they are; and in
the state reached no two distinct live string objects have the same content. -/
theorem canonicalization (vm : VM) (calls : List Call) (hinv : Interned vm)
    (hvalid : ∀ c, c ∈ calls → c.Valid) :
    (∀ (i j : Nat) (ci cj : Call), calls[i]? = some ci → calls[j]? = some cj →
      ci.content = cj.content →
      ∃ r, (run vm calls).1[i]? = some r ∧ (run vm calls).1[j]? = some r) ∧
    (∀ a b oa ob, (run vm calls).2.heap a = some oa → (run vm calls).2.heap b = some ob →
      content oa = content ob → a = b) := by
  constructor
  · intro i j ci cj hi hj hsame
    rcases Nat.le_total i j with hij | hij
    · exact run_same_le vm calls hvalid i j hij ci cj hi hj hsame
    · obtain ⟨r, h1, h2⟩ := run_same_le vm calls hvalid j i hij cj ci hj hi hsame.symm
      exact ⟨r, h2, h1⟩
  · intro a b oa ob ha hb hsame
    have hfin := run_interned vm calls hinv hvalid
    obtain ⟨-, hha, hla⟩ := hfin.registered a oa ha
    obtain ⟨-, hhb, hlb⟩ := hfin.registered b ob hb
    have hhash : oa.hash = ob.hash := by
      rw [hha, hhb]; exact hashString_congr _ _ _ _ hsame
    rw [hsame, hhash, hlb] at hla
    exact (Option.some.inj hla).symm

/-- Witness for C8: from the initial state, `"foo"`, `"bar"`, `"foo"` through mixed
constructors give the references 1, 2, 1, and `"hello"` twice through `copyString`
gives the same reference twice. -/
theorem canonicalization_witness :
    Interned initVM ∧ (∀ c, c ∈ fooBarFoo → c.Valid) ∧
    ((∀ (i j : Nat) (ci cj : Call), fooBarFoo[i]? = some ci → fooBarFoo[j]? = some cj →
        ci.content = cj.content →
        ∃ r, (run initVM fooBarFoo).1[i]? = some r ∧ (run initVM fooBarFoo).1[j]? = some r) ∧
      (∀ a b oa ob, (run initVM fooBarFoo).2.heap a = some oa →
        (run initVM fooBarFoo).2.heap b = some ob → content oa = content ob → a = b)) ∧
    (run initVM fooBarFoo).1 = [1, 2, 1] ∧
    (run initVM [⟨Ctor.copy, helloBytes, 5⟩, ⟨Ctor.copy, helloBytes, 5⟩]).1 = [1, 1] :=
  ⟨interned_initVM, fooBarFoo_valid,
    canonicalization initVM fooBarFoo interned_initVM fooBarFoo_valid,
    by decide, by decide⟩

/-- C9: hash determinism. Whichever constructor performs the call, the object it
returns is live, holds the content of the call, and stores the 32-bit FNV-1a hash of
that content (from the offset basis, each byte XORed in and then multiplied by the
prime, modulo 2^32); every live object of the state stores the hash of its own content. -/
theorem hash_determinism (vm : VM) (c : Call) (hinv : Interned vm) (hv : c.Valid) :
    (∃ o, (construct vm c).2.heap (construct vm c).1 = some o ∧ content o = c.content ∧
      o.hash = c.content.foldl hashStep FNV_OFFSET_BASIS ∧ o.hash < 2 ^ 32) ∧
    (∀ a o, (construct vm c).2.heap a = some o →
      o.hash = (content o).foldl hashStep FNV_OFFSET_BASIS) := by
  have hfin := construct_interned vm c hinv hv
  constructor
  · obtain ⟨e, he, hh, hc, hr⟩ := lookup_some _ _ _ _ (construct_lookup vm c hv)
    obtain ⟨o, ho, hco, hho⟩ := hfin.live e he
    rw [hr] at ho
    have hhash : o.hash = c.content.foldl hashStep FNV_OFFSET_BASIS := by
      rw [hho, hh]; rfl
    refine ⟨o, ho, hco.trans hc, hhash, ?_⟩
    rw [hho, hh]
    exact hashString_lt _ _
  · intro a o ha
    exact (hfin.registered a o ha).2.1

/-- Witness for C9: `"lox"` built by `copyString` and by `takeString` from the initial
state stores the same hash, the FNV-1a hash of its three bytes. -/
theorem hash_determinism_witness :
    Interned initVM ∧ Call.Valid ⟨Ctor.copy, loxBytes, 3⟩ ∧
    ((∃ o, (construct initVM ⟨Ctor.copy, loxBytes, 3⟩).2.heap
          (construct initVM ⟨Ctor.copy, loxBytes, 3⟩).1 = some o ∧
        content o = Call.content ⟨Ctor.copy, loxBytes, 3⟩ ∧
        o.hash = (Call.content ⟨Ctor.copy, loxBytes, 3⟩).foldl hashStep FNV_OFFSET_BASIS ∧
        o.hash < 2 ^ 32) ∧
      (∀ a o, (construct initVM ⟨Ctor.copy, loxBytes, 3⟩).2.heap a = some o →
        o.hash = (content o).foldl hashStep FNV_OFFSET_BASIS)) ∧
    ((construct initVM ⟨Ctor.copy, loxBytes, 3⟩).2.heap 1).map (fun o => o.hash)
      = some 1213292412 ∧
    ((construct initVM ⟨Ctor.take, loxBytes ++ [0], 3⟩).2.heap 1).map (fun o => o.hash)
      = some 1213292412 :=
  ⟨interned_initVM, by simp [Call.Valid, loxBytes],
    hash_determinism initVM ⟨Ctor.copy, loxBytes, 3⟩ interned_initVM
      (by simp [Call.Valid, loxBytes]),
    by decide, by decide⟩

/-! ## `isObjType` and the tag invariant -/

/-- C12: `isObjType` never reads a field whose tag does not match. For a Value whose tag
is not the object tag the result is false, whatever the heap and whatever the union
holds, and also when every read of the object field is guarded by the tag (`readObj`):
the discriminant test is reached only after `IS_OBJ` succeeded. So the predicate has a
result on every Value whose reference, when it has the object tag, is a live object,
and the guarded reading gives the same result. -/
theorem isObjType_short_circuit (h : Heap) (v : Value) (t : ObjType)
    (htag : v.type ≠ ValueType.VAL_OBJ) :
    isObjType h v t = some false ∧
    isObjTypeGuarded h v t = some false ∧
    (∀ (h1 : Heap) (as1 : ValueAs), isObjType h1 ⟨v.type, as1⟩ t = some false) ∧
    (∀ v1 : Value, (v1.type = ValueType.VAL_OBJ → ∃ o, h v1.as.obj = some o) →
      ∃ b, isObjType h v1 t = some b ∧ isObjTypeGuarded h v1 t = some b) := by
  refine ⟨?_, ?_, ?_, ?_⟩
  · simp [isObjType, IS_OBJ, htag]
  · simp [isObjTypeGuarded, IS_OBJ, htag]
  · intro h1 as1
    simp [isObjType, IS_OBJ, htag]
  · intro v1 hlive
    by_cases hv : v1.type = ValueType.VAL_OBJ
    · obtain ⟨o, ho⟩ := hlive hv
      exact ⟨decide (o.obj.type = t), by simp [isObjType, IS_OBJ, hv, ho],
        by simp [isObjTypeGuarded, readObj, IS_OBJ, hv, ho]⟩
    · exact ⟨false, by simp [isObjType, IS_OBJ, hv], by simp [isObjTypeGuarded, IS_OBJ, hv]⟩

/-- Witness for C12: a boolean Value whose object view points at a dead address, on the
empty heap. -/
theorem isObjType_short_circuit_witness :
    boolValue.type ≠ ValueType.VAL_OBJ ∧ emptyHeap boolValue.as.obj = none ∧
    (isObjType emptyHeap boolValue ObjType.OBJ_STRING = some false ∧
      isObjTypeGuarded emptyHeap boolValue ObjType.OBJ_STRING = some false ∧
      (∀ (h1 : Heap) (as1 : ValueAs),
        isObjType h1 ⟨boolValue.type, as1⟩ ObjType.OBJ_STRING = some false) ∧
      (∀ v1 : Value, (v1.type = ValueType.VAL_OBJ → ∃ o, emptyHeap v1.as.obj = some o) →
        ∃ b, isObjType emptyHeap v1 ObjType.OBJ_STRING = some b ∧
          isObjTypeGuarded emptyHeap v1 ObjType.OBJ_STRING = some b)) :=
  ⟨by decide, rfl,
    isObjType_short_circuit emptyHeap boolValue ObjType.OBJ_STRING (by decide)⟩

end Clox
